import Mathlib

/-!
Verification of the codetools repository core: the format dispatcher
(formatter.js), the diff engine (differ.js) and the multi-buffer diff
orchestrator / buffer rotation (app.js: handleDiff, handleCycle).

Modelling conventions:
* JS strings are Lean `String`s; char-level work happens on `List Char`.
* External CDN capabilities (js-beautify, prettier, sql-formatter, jsdiff,
  diff2html) are parameters of the model (`Caps`); the repository only
  routes to them, so the model records the options each call passes.
* The host runtime capabilities JSON.parse / JSON.stringify are modelled
  concretely (`jsonParse` / `jstringify`) over a JSON value type whose
  numbers are integers; fractional / exponent number syntax and surrogate
  escape pairs are outside the modelled fragment (they concern the host
  float semantics, not this repository).
* The DOM: handleDiff always supplies a target element, so the
  targetEl-missing throw of computeAndRenderDiff cannot fire and is not
  modelled; showStatus calls are modelled as the returned `Report`.
-/

/-- Model of the JavaScript regex class \s and of String.prototype.trim
whitespace: the characters JS treats as whitespace. -/
def jsWS (c : Char) : Bool :=
  c = ' ' || c = '\t' || c = '\n' || c = '\r' || c = '\x0b' || c = '\x0c' ||
  c = '\u00A0' || c = '\u1680' || (0x2000 ≤ c.toNat && c.toNat ≤ 0x200A) ||
  c = '\u2028' || c = '\u2029' || c = '\u202F' || c = '\u205F' ||
  c = '\u3000' || c = '\uFEFF'

/-- Models the JS truthiness test `!s.trim()`: true iff every character of
`s` is whitespace (equivalently, `s.trim()` is the empty string). -/
def jsBlank (s : String) : Bool := s.toList.all jsWS

/-! ### formatPython (formatter.js lines 150-168)
The deterministic local normalization pipeline, step by step in source
order: CRLF to LF, lone CR to LF, tabs to 4 spaces, strip trailing
whitespace per line, collapse runs of 4+ newlines to 3, and replace the
trailing newline run by exactly one newline. -/

/-- Step 1, `.replace(/\r\n/g, '\n')`: each CR immediately followed by LF
is dropped (global, left-to-right, non-overlapping). -/
def replCRLF : List Char → List Char
  | [] => []
  | [c] => [c]
  | c :: d :: rest =>
    if c = '\r' ∧ d = '\n' then '\n' :: replCRLF rest
    else c :: replCRLF (d :: rest)

/-- Step 2, `.replace(/\r/g, '\n')`: every remaining CR becomes LF. -/
def replCR (l : List Char) : List Char :=
  l.map (fun c => if c = '\r' then '\n' else c)

/-- Step 3, `.replace(/\t/g, '    ')`: each tab becomes four spaces. -/
def expandTabs : List Char → List Char
  | [] => []
  | c :: rest => (if c = '\t' then [' ', ' ', ' ', ' '] else [c]) ++ expandTabs rest

/-- Models `.split('\n')`: split into lines at each LF (an empty input
gives one empty line, a trailing LF gives a final empty line). -/
def splitNl : List Char → List (List Char)
  | [] => [[]]
  | c :: rest =>
    if c = '\n' then [] :: splitNl rest
    else
      match splitNl rest with
      | l :: ls => (c :: l) :: ls
      | [] => [[c]]

/-- Models `line.replace(/\s+$/, '')`: drop the trailing run of JS
whitespace from one line. -/
def rstripLine (l : List Char) : List Char :=
  (l.reverse.dropWhile jsWS).reverse

/-- Models `.join('\n')`: interleave LF between the lines. -/
def joinNl : List (List Char) → List Char
  | [] => []
  | [l] => l
  | l :: ls => l ++ '\n' :: joinNl ls

mutual

/-- Step 5, `.replace(/\n{4,}/g, '\n\n\n')`: each maximal run of 4 or
more LFs is replaced by exactly 3 LFs (shorter runs are untouched). -/
def collapseNl : List Char → List Char
  | [] => []
  | c :: rest => if c = '\n' then nlRun 1 rest else c :: collapseNl rest

/-- Helper of `collapseNl`: `k` LFs of the current run have been seen. -/
def nlRun (k : Nat) : List Char → List Char
  | [] => List.replicate (min k 3) '\n'
  | c :: rest =>
    if c = '\n' then nlRun (k + 1) rest
    else List.replicate (min k 3) '\n' ++ c :: collapseNl rest

end

/-- Drops the trailing run of LFs. -/
def stripTrailNl (l : List Char) : List Char :=
  (l.reverse.dropWhile (fun c => c = '\n')).reverse

/-- Step 6, `.replace(/\n*$/, '\n')`: the (possibly empty) trailing run of
LFs is replaced by exactly one LF. -/
def ensureFinalNl (l : List Char) : List Char :=
  stripTrailNl l ++ ['\n']

/-- The whole pipeline of formatPython on character lists. -/
def pyNorm (l : List Char) : List Char :=
  ensureFinalNl (collapseNl (joinNl ((splitNl (expandTabs (replCR (replCRLF l)))).map rstripLine)))

/-- formatter.js formatPython: basic cleanup (line endings, tabs, trailing
whitespace, blank-line runs, final newline); never fails. -/
def formatPython (code : String) : String :=
  String.mk (pyNorm code.toList)

/-! ### JSON value model (the host JSON.parse / JSON.stringify capabilities)
formatter.js formatJSON falls back to `JSON.stringify(JSON.parse(code),
null, 2) + '\n'`; the two host functions are modelled here. Numbers are
modelled as integers (host numbers are floats; fraction / exponent syntax
is outside the modelled fragment, as are surrogate \u escape pairs). -/

mutual

inductive Json where
  | null
  | bool (b : Bool)
  | num (n : Int)
  | str (s : String)
  | arr (elems : JsonList)
  | obj (members : JsonMems)

inductive JsonList where
  | nil
  | cons (hd : Json) (tl : JsonList)

inductive JsonMems where
  | nil
  | cons (key : String) (val : Json) (tl : JsonMems)

end

mutual

/-- Structural weight of a JSON value, used as a parser fuel bound. -/
def jweight : Json → Nat
  | .null => 1
  | .bool _ => 1
  | .num _ => 1
  | .str _ => 1
  | .arr xs => 1 + jweightList xs
  | .obj ms => 1 + jweightMems ms

/-- Weight of an array element list. -/
def jweightList : JsonList → Nat
  | .nil => 0
  | .cons x tl => 1 + jweight x + jweightList tl

/-- Weight of an object member list. -/
def jweightMems : JsonMems → Nat
  | .nil => 0
  | .cons _ v tl => 1 + jweight v + jweightMems tl

end

/-- Decimal digit character of `n < 10`. -/
def digitChar (n : Nat) : Char := Char.ofNat (48 + n)

/-- Fueled decimal rendering of a natural number (most significant digit
first); the fuel only needs to exceed the digit count. -/
def natDigsF : Nat → Nat → List Char
  | 0, _ => []
  | fuel + 1, n =>
    if n < 10 then [digitChar n]
    else natDigsF fuel (n / 10) ++ [digitChar (n % 10)]

/-- Decimal rendering of a natural number. -/
def natDigs (n : Nat) : List Char := natDigsF (n + 1) n

/-- Decimal rendering of an integer, as JSON.stringify prints integral
numbers. -/
def intDigs (n : Int) : List Char :=
  if n < 0 then '-' :: natDigs n.natAbs else natDigs n.natAbs

/-- Lowercase hexadecimal digit character of `n < 16`. -/
def hexDigitChar (n : Nat) : Char :=
  if n < 10 then Char.ofNat (48 + n) else Char.ofNat (87 + n)

/-- JSON.stringify escaping of one string character: quote, backslash and
the named control escapes, then \u00xx for other control characters, all
other characters verbatim. -/
def escChar (c : Char) : List Char :=
  if c = '"' then ['\\', '"']
  else if c = '\\' then ['\\', '\\']
  else if c = '\x08' then ['\\', 'b']
  else if c = '\t' then ['\\', 't']
  else if c = '\n' then ['\\', 'n']
  else if c = '\x0c' then ['\\', 'f']
  else if c = '\r' then ['\\', 'r']
  else if c.toNat < 32 then
    ['\\', 'u', '0', '0', hexDigitChar (c.toNat / 16), hexDigitChar (c.toNat % 16)]
  else [c]

/-- Escape a whole character list. -/
def escList : List Char → List Char
  | [] => []
  | c :: rest => escChar c ++ escList rest

/-- JSON string literal of `s` (quotes included). -/
def escString (s : String) : List Char :=
  '"' :: escList s.toList ++ ['"']

/-- `n` spaces of indentation. -/
def sp (n : Nat) : List Char := List.replicate n ' '

mutual

/-- JSON.stringify(v, null, 2) at current indentation depth `d` (the
characters of the value itself; the enclosing container provides the
leading indentation of the first line). -/
def jser (d : Nat) : Json → List Char
  | .null => ['n', 'u', 'l', 'l']
  | .bool b => if b then ['t', 'r', 'u', 'e'] else ['f', 'a', 'l', 's', 'e']
  | .num n => intDigs n
  | .str s => escString s
  | .arr .nil => ['[', ']']
  | .arr (.cons x tl) =>
    '[' :: '\n' :: (jserItems (d + 2) (JsonList.cons x tl) ++ '\n' :: (sp d ++ [']']))
  | .obj .nil => ['\x7b', '\x7d']
  | .obj (.cons k v tl) =>
    '\x7b' :: '\n' :: (jserMems (d + 2) (JsonMems.cons k v tl) ++ '\n' :: (sp d ++ ['\x7d']))

/-- Array items, one per line at indentation `d`, comma separated. -/
def jserItems (d : Nat) : JsonList → List Char
  | .nil => []
  | .cons x tl =>
    (sp d ++ jser d x) ++
      (match tl with
       | .nil => []
       | .cons _ _ => ',' :: '\n' :: jserItems d tl)

/-- Object members, `"key": value` per line at indentation `d`. -/
def jserMems (d : Nat) : JsonMems → List Char
  | .nil => []
  | .cons k v tl =>
    (sp d ++ (escString k ++ ':' :: ' ' :: jser d v)) ++
      (match tl with
       | .nil => []
       | .cons _ _ _ => ',' :: '\n' :: jserMems d tl)

end

/-- The host JSON.stringify(v, null, 2). -/
def jstringify (v : Json) : String := String.mk (jser 0 v)

/-- JSON whitespace accepted between tokens by JSON.parse. -/
def jsonTokWS (c : Char) : Bool :=
  c = ' ' || c = '\t' || c = '\n' || c = '\r'

/-- Skip JSON token whitespace. -/
def skipWs (l : List Char) : List Char := l.dropWhile jsonTokWS

/-- Match an expected literal character sequence, returning the remainder. -/
def stripPre : List Char → List Char → Option (List Char)
  | [], l => some l
  | _ :: _, [] => none
  | p :: ps, c :: cs => if c = p then stripPre ps cs else none

/-- Value of one hexadecimal digit character. -/
def hexVal (c : Char) : Option Nat :=
  if '0' ≤ c ∧ c ≤ '9' then some (c.toNat - 48)
  else if 'a' ≤ c ∧ c ≤ 'f' then some (c.toNat - 87)
  else if 'A' ≤ c ∧ c ≤ 'F' then some (c.toNat - 55)
  else none

/-- Code point of a \uXXXX escape: the value of the next four hex digits,
when present. -/
def hex4 : List Char → Option Nat
  | h1 :: h2 :: h3 :: h4 :: _ =>
    match hexVal h1, hexVal h2, hexVal h3, hexVal h4 with
    | some a, some b, some c3, some d4 => some (a * 4096 + b * 256 + c3 * 16 + d4)
    | _, _, _, _ => none
  | _ => none

/-- Fueled JSON string body parse (after the opening quote): returns the
decoded characters and the remainder after the closing quote. Unescaped
control characters are rejected; \uXXXX is accepted for non-surrogate code
points. One fuel unit is spent per decoded character, so fuel exceeding
the input length always suffices. -/
def pStrBodyF : Nat → List Char → Option (List Char × List Char)
  | 0, _ => none
  | fuel + 1, l =>
    match l with
    | [] => none
    | c :: rest =>
      if c = '"' then some ([], rest)
      else if c = '\\' then
        rest.head?.bind (fun e =>
          if e = '"' then (pStrBodyF fuel rest.tail).map (fun p => ('"' :: p.1, p.2))
          else if e = '\\' then (pStrBodyF fuel rest.tail).map (fun p => ('\\' :: p.1, p.2))
          else if e = '/' then (pStrBodyF fuel rest.tail).map (fun p => ('/' :: p.1, p.2))
          else if e = 'b' then (pStrBodyF fuel rest.tail).map (fun p => ('\x08' :: p.1, p.2))
          else if e = 'f' then (pStrBodyF fuel rest.tail).map (fun p => ('\x0c' :: p.1, p.2))
          else if e = 'n' then (pStrBodyF fuel rest.tail).map (fun p => ('\n' :: p.1, p.2))
          else if e = 'r' then (pStrBodyF fuel rest.tail).map (fun p => ('\r' :: p.1, p.2))
          else if e = 't' then (pStrBodyF fuel rest.tail).map (fun p => ('\t' :: p.1, p.2))
          else if e = 'u' then
            (hex4 rest.tail).bind (fun code =>
              if code < 0xD800 ∨ 0xE000 ≤ code then
                (pStrBodyF fuel (rest.tail.drop 4)).map
                  (fun p => (Char.ofNat code :: p.1, p.2))
              else none)
          else none)
      else if c.toNat < 32 then none
      else (pStrBodyF fuel rest).map (fun p => (c :: p.1, p.2))

/-- JSON string body parse with sufficient fuel. -/
def pStrBody (l : List Char) : Option (List Char × List Char) :=
  pStrBodyF (l.length + 1) l

/-- Fold decimal digit characters into a natural number. -/
def digsVal (l : List Char) : Nat :=
  l.foldl (fun a c => a * 10 + (c.toNat - 48)) 0

/-- Parse a JSON natural number literal: a maximal nonempty digit run with
no leading zero. -/
def pNatNum (l : List Char) : Option (Nat × List Char) :=
  let ds := l.takeWhile Char.isDigit
  if ds = [] then none
  else if 2 ≤ ds.length ∧ ds.head? = some '0' then none
  else some (digsVal ds, l.dropWhile Char.isDigit)

/-- Parse a JSON integral number literal (optional minus sign). -/
def pNum : List Char → Option (Json × List Char)
  | [] => none
  | c :: r =>
    if c = '-' then (pNatNum r).map (fun p => (Json.num (-(p.1 : Int)), p.2))
    else (pNatNum (c :: r)).map (fun p => (Json.num ((p.1 : Nat) : Int), p.2))

mutual

/-- Fueled JSON value parse (leading whitespace allowed); models
JSON.parse on the integral fragment. -/
def pVal : Nat → List Char → Option (Json × List Char)
  | 0, _ => none
  | fuel + 1, l =>
    match skipWs l with
    | [] => none
    | c :: r =>
      if c = 'n' then (stripPre ['u', 'l', 'l'] r).map (fun r2 => (Json.null, r2))
      else if c = 't' then (stripPre ['r', 'u', 'e'] r).map (fun r2 => (Json.bool true, r2))
      else if c = 'f' then (stripPre ['a', 'l', 's', 'e'] r).map (fun r2 => (Json.bool false, r2))
      else if c = '"' then (pStrBody r).map (fun p => (Json.str (String.mk p.1), p.2))
      else if c = '[' then
        match skipWs r with
        | [] => none
        | c2 :: r2 =>
          if c2 = ']' then some (Json.arr .nil, r2)
          else (pItems fuel (c2 :: r2)).map (fun p => (Json.arr p.1, p.2))
      else if c = '\x7b' then
        match skipWs r with
        | [] => none
        | c2 :: r2 =>
          if c2 = '\x7d' then some (Json.obj .nil, r2)
          else (pMems fuel (c2 :: r2)).map (fun p => (Json.obj p.1, p.2))
      else pNum (c :: r)

/-- Fueled parse of one-or-more array items up to and including the
closing bracket. -/
def pItems : Nat → List Char → Option (JsonList × List Char)
  | 0, _ => none
  | fuel + 1, l =>
    match pVal fuel l with
    | none => none
    | some (v, r) =>
      match skipWs r with
      | [] => none
      | c :: r2 =>
        if c = ',' then (pItems fuel r2).map (fun p => (JsonList.cons v p.1, p.2))
        else if c = ']' then some (JsonList.cons v .nil, r2)
        else none

/-- Fueled parse of one-or-more object members up to and including the
closing brace. -/
def pMems : Nat → List Char → Option (JsonMems × List Char)
  | 0, _ => none
  | fuel + 1, l =>
    match skipWs l with
    | [] => none
    | c :: r =>
      if c = '"' then
        match pStrBody r with
        | none => none
        | some (k, r2) =>
          match skipWs r2 with
          | [] => none
          | c2 :: r3 =>
            if c2 = ':' then
              match pVal fuel r3 with
              | none => none
              | some (v, r4) =>
                match skipWs r4 with
                | [] => none
                | c3 :: r5 =>
                  if c3 = ',' then
                    (pMems fuel r5).map (fun p => (JsonMems.cons (String.mk k) v p.1, p.2))
                  else if c3 = '\x7d' then some (JsonMems.cons (String.mk k) v .nil, r5)
                  else none
            else none
      else none

end

/-- The host JSON.parse on the modelled fragment: a single value followed
only by whitespace. -/
def jsonParse (s : String) : Except String Json :=
  match pVal (s.toList.length + 1) s.toList with
  | some (v, rest) =>
    if skipWs rest = [] then .ok v
    else .error "Unexpected non-whitespace character after JSON data"
  | none => .error "Unexpected token in JSON"

/-! ### External capabilities and the format dispatcher (formatter.js) -/

/-- The js-beautify option object fields the repository passes (absent JS
keys are `none`). Field order follows first appearance in formatter.js. -/
structure BeautifyOpts where
  indent_size : Option Nat
  space_in_empty_paren : Option Bool
  preserve_newlines : Option Bool
  max_preserve_newlines : Option Nat
  end_with_newline : Option Bool
  wrap_line_length : Option Nat
  indent_inner_html : Option Bool
  newline_between_rules : Option Bool
  content_unformatted : Option (List String)
  unformatted : Option (List String)
deriving DecidableEq

/-- Options formatJavaScript passes to js_beautify. -/
def jsBeautifyOpts : BeautifyOpts :=
  ⟨some 2, some false, some true, some 2, some true, none, none, none, none, none⟩

/-- Options formatHTML passes to html_beautify. -/
def htmlBeautifyOpts : BeautifyOpts :=
  ⟨some 2, none, some true, some 2, some true, some 120, some true, none, none, none⟩

/-- Options formatCSS passes to css_beautify. -/
def cssBeautifyOpts : BeautifyOpts :=
  ⟨some 2, none, none, none, some true, none, none, some true, none, none⟩

/-- Options formatXML passes to html_beautify. -/
def xmlBeautifyOpts : BeautifyOpts :=
  ⟨some 2, none, some true, some 2, some true, some 120, none, none, some [], some []⟩

/-- The sql-formatter option object formatSQL passes. -/
structure SqlOpts where
  language : String
  indent : String
  uppercase : Bool
  linesBetweenQueries : Nat
deriving DecidableEq

/-- Options formatSQL passes, with the resolved dialect. -/
def sqlFormatterOpts (dialect : String) : SqlOpts := ⟨dialect, "  ", true, 2⟩

/-- The prettier option fields formatJSON passes (the plugin array is
runtime plumbing and not modelled). -/
structure PrettierOpts where
  parserName : String
  tabWidth : Nat
deriving DecidableEq

/-- Options formatJSON passes to prettier. -/
def prettierOpts : PrettierOpts := ⟨"json", 2⟩

/-- The external CDN capabilities as present in the runtime. A formatter
capability is `none` when its global is missing; a present capability is an
arbitrary function that may return text or throw (modelled as `Except`).
`jsdiff` / `diff2html` record presence of the two diff globals. -/
structure Caps where
  js_beautify : Option (String → BeautifyOpts → Except String String)
  html_beautify : Option (String → BeautifyOpts → Except String String)
  css_beautify : Option (String → BeautifyOpts → Except String String)
  prettier : Option (String → PrettierOpts → Except String String)
  sqlFormatter : Option (String → SqlOpts → Except String String)
  jsdiff : Bool
  diff2html : Bool

/-- formatter.js formatJavaScript. -/
def formatJavaScript (caps : Caps) (code : String) : Except String String :=
  match caps.js_beautify with
  | none => .error "JavaScript formatter (js-beautify) is not loaded. Check your internet connection."
  | some b => b code jsBeautifyOpts

/-- The JSON.parse + JSON.stringify fallback tier of formatJSON. -/
def jsonFallback (code : String) : Except String String :=
  match jsonParse code with
  | .ok v => .ok (jstringify v ++ "\n")
  | .error e => .error ("Invalid JSON: " ++ e)

/-- formatter.js formatJSON: try prettier when its globals are present; on
any prettier failure or absence fall back to parse + re-serialize. -/
def formatJSON (caps : Caps) (code : String) : Except String String :=
  match caps.prettier with
  | some p =>
    match p code prettierOpts with
    | .ok out => .ok out
    | .error _ => jsonFallback code
  | none => jsonFallback code

/-- formatter.js formatHTML. -/
def formatHTML (caps : Caps) (code : String) : Except String String :=
  match caps.html_beautify with
  | none => .error "HTML formatter (js-beautify) is not loaded. Check your internet connection."
  | some b => b code htmlBeautifyOpts

/-- formatter.js formatCSS. -/
def formatCSS (caps : Caps) (code : String) : Except String String :=
  match caps.css_beautify with
  | none => .error "CSS formatter (js-beautify) is not loaded. Check your internet connection."
  | some b => b code cssBeautifyOpts

/-- The sql-formatter v4 dialect allow-list of formatter.js (an object
whose values equal its keys). -/
def sqlDialects : List String :=
  ["sql", "mysql", "postgresql", "plsql", "tsql", "spark", "mariadb", "redshift"]

/-- Models `languageMap[dialect] || 'sql'`. -/
def resolveDialect (d : String) : String :=
  if d ∈ sqlDialects then d else "sql"

/-- formatter.js formatSQL. -/
def formatSQL (caps : Caps) (code : String) (dialect : String) : Except String String :=
  match caps.sqlFormatter with
  | none => .error "SQL formatter is not loaded. Check your internet connection."
  | some f => f code (sqlFormatterOpts (resolveDialect dialect))

/-- formatter.js formatXML (note: delegates to the html_beautify global). -/
def formatXML (caps : Caps) (code : String) : Except String String :=
  match caps.html_beautify with
  | none => .error "XML formatter (js-beautify) is not loaded. Check your internet connection."
  | some b => b code xmlBeautifyOpts

/-- Models `options.sqlDialect || 'sql'` (absent and empty are falsy). -/
def sqlDialectOrDefault : Option String → String
  | none => "sql"
  | some d => if d = "" then "sql" else d

/-- formatter.js formatCode: the language dispatcher. `sqlDialect` is the
optional `options.sqlDialect` entry. -/
def formatCode (caps : Caps) (code : String) (language : String)
    (sqlDialect : Option String) : Except String String :=
  if jsBlank code = true then
    .error "No code to format. Please enter some code in the input editor."
  else if language = "javascript" then formatJavaScript caps code
  else if language = "json" then formatJSON caps code
  else if language = "html" then formatHTML caps code
  else if language = "css" then formatCSS caps code
  else if language = "sql" then formatSQL caps code (sqlDialectOrDefault sqlDialect)
  else if language = "xml" then formatXML caps code
  else if language = "python" then .ok (formatPython code)
  else .error ("Unsupported language: " ++ language)

/-! ### The diff engine (differ.js computeAndRenderDiff)
Classification result is the `identical` flag of the returned object; the
rendered payload is produced by the external diff2html capability and not
modelled. handleDiff always supplies a target element, so the targetEl
check cannot throw in the modelled flow. -/

/-- differ.js computeAndRenderDiff: identical short-circuits first, then
the two library-presence checks, then classification `changed`. -/
def computeAndRenderDiff (caps : Caps) (original modified : String) : Except String Bool :=
  if original = modified then .ok true
  else if jsBlank original && jsBlank modified then .ok true
  else if caps.jsdiff = false then
    .error "jsdiff library is not loaded. Check your internet connection."
  else if caps.diff2html = false then
    .error "diff2html library is not loaded. Check your internet connection."
  else .ok false

/-! ### The multi-buffer diff orchestrator (app.js handleDiff) and buffer
rotation (app.js handleCycle) -/

/-- The three fixed diff buffer slots. -/
inductive Key where
  | A
  | B
  | C
deriving DecidableEq, Repr

/-- The fixed slot enumeration order `['A', 'B', 'C']`. -/
def allKeys : List Key := [Key.A, Key.B, Key.C]

/-- The three buffers: mutable content and title of each slot. -/
structure BufState where
  contA : String
  contB : String
  contC : String
  titleA : String
  titleB : String
  titleC : String
deriving DecidableEq, Repr

/-- Content of one slot. -/
def BufState.content (st : BufState) : Key → String
  | .A => st.contA
  | .B => st.contB
  | .C => st.contC

/-- Title of one slot. -/
def BufState.title (st : BufState) : Key → String
  | .A => st.titleA
  | .B => st.titleB
  | .C => st.titleC

/-- Replace the content of one slot. -/
def BufState.setContent (st : BufState) : Key → String → BufState
  | .A, s => ⟨s, st.contB, st.contC, st.titleA, st.titleB, st.titleC⟩
  | .B, s => ⟨st.contA, s, st.contC, st.titleA, st.titleB, st.titleC⟩
  | .C, s => ⟨st.contA, st.contB, s, st.titleA, st.titleB, st.titleC⟩

/-- A slot whose content has something beyond whitespace
(`getEditorContent(...).trim()` is truthy). -/
def nonBlank (st : BufState) (k : Key) : Bool := !(jsBlank (st.content k))

/-- `keysWithContent` of handleDiff. -/
def keysWith (st : BufState) : List Key := allKeys.filter (nonBlank st)

/-- `othersWithContent` of handleDiff: non-base slots with content. -/
def othersWith (st : BufState) (baseKey : Key) : List Key :=
  (allKeys.filter (fun k => decide (k ≠ baseKey))).filter (nonBlank st)

/-- The status-bar outcome of one handleDiff invocation.
`statusErr m` is `showStatus(m, 'error')`; `noDifferences` is
`showStatus('No differences found', 'success')`; `diffComputed n` is the
`Diff computed — n comparison(s)` success status. -/
inductive Report where
  | statusErr (msg : String)
  | noDifferences
  | diffComputed (n : Nat)
deriving DecidableEq, Repr

/-- The pre-formatting pass of handleDiff: format each listed slot with
`formatCode(raw, language)` (no options object, hence no sqlDialect); on
success store the formatted text, on any failure keep the raw content. -/
def formatPass (caps : Caps) (language : String) : BufState → List Key → BufState
  | st, [] => st
  | st, k :: ks =>
    match formatCode caps (st.content k) language none with
    | .ok f => formatPass caps language (st.setContent k f) ks
    | .error _ => formatPass caps language st ks

/-- The comparison pass of handleDiff: one computeAndRenderDiff call per
listed slot against the base content, collecting the classification of
each completed call and stopping at the first thrown error. -/
def diffLoop (caps : Caps) (base : String) (st : BufState) :
    List Key → List Bool × Option String
  | [] => ([], none)
  | k :: ks =>
    match computeAndRenderDiff caps base (st.content k) with
    | .error e => ([], some e)
    | .ok b =>
      match diffLoop caps base st ks with
      | (bs, e) => (b :: bs, e)

/-- app.js handleDiff for one invocation: validation, pre-formatting pass,
comparison pass, aggregation. Returns the buffer state after the run, the
status-bar report, and the classifications of the comparisons performed.
`uiSqlDialect` models the sql-dialect select of the page, which handleDiff
never reads. -/
def handleDiff (caps : Caps) (st : BufState) (baseKey : Key) (language : String)
    (uiSqlDialect : String) : BufState × Report × List Bool :=
  if jsBlank (st.content baseKey) = true ∧ othersWith st baseKey = [] then
    (st, .statusErr "Enter content in at least two editors", [])
  else if jsBlank (st.content baseKey) = true then
    (st, .statusErr "Base editor is empty", [])
  else if othersWith st baseKey = [] then
    (st, .statusErr "Enter content in at least one other editor", [])
  else
    let st2 := formatPass caps language st (keysWith st)
    match diffLoop caps (st2.content baseKey) st2 (othersWith st baseKey) with
    | (results, some e) => (st2, .statusErr e, results)
    | (results, none) =>
      if results.all (fun b => b) then (st2, .noDifferences, results)
      else (st2, .diffComputed (othersWith st baseKey).length, results)

/-- app.js handleCycle: A gets C, B gets A, C gets B, contents and titles
alike; pure and total. -/
def handleCycle (st : BufState) : BufState :=
  ⟨st.contC, st.contA, st.contB, st.titleC, st.titleA, st.titleB⟩

/-- The content one pre-formatting attempt leaves in a slot: the formatted
text on success, the raw text on failure. -/
def fmtOr (caps : Caps) (language : String) (s : String) : String :=
  match formatCode caps s language none with
  | .ok f => f
  | .error _ => s

/-- The classification computeAndRenderDiff returns when both diff
libraries are present. -/
def idTag (a b : String) : Bool := a == b || (jsBlank a && jsBlank b)

/-- JS whitespace other than LF: a character that the per-line
trailing-whitespace strip removes. -/
def wsNoNl (c : Char) : Bool := jsWS c && !(c = '\n')

/-- True exactly at the end of the list and before an LF: the positions
where a trailing whitespace character of a line would sit. -/
def nlOrEnd (w : List Char) : Bool :=
  match w.head? with
  | none => true
  | some d => d = '\n'

/-- Whether some line of the text carries trailing whitespace (a non-LF
whitespace character immediately before an LF or at the very end). -/
def badPair : List Char → Bool
  | [] => false
  | c :: w => (wsNoNl c && nlOrEnd w) || badPair w

/-- Length of the leading LF run. -/
def leadNl (l : List Char) : Nat := (l.takeWhile (fun c => c = '\n')).length

/-- The list after its leading LF run. -/
def restNl (l : List Char) : List Char := l.dropWhile (fun c => c = '\n')

/-- No run of four or more consecutive LFs anywhere. -/
def noQuad : List Char → Bool
  | [] => true
  | c :: t =>
    if c = '\n' then decide (leadNl t ≤ 2) && noQuad (restNl t) else noQuad t
termination_by l => l.length
decreasing_by
  · simp only [restNl, List.length_cons]
    exact Nat.lt_succ_of_le (List.IsSuffix.sublist (List.dropWhile_suffix _)).length_le
  · simp [List.length_cons]

/-- The character list ends with exactly one LF. -/
def endsOneNl (l : List Char) : Prop :=
  l.getLast? = some '\n' ∧ l.dropLast.getLast? ≠ some '\n'

/-- The remainder does not begin with a decimal digit, so a number literal
just before it stops exactly at its end. -/
def noDigitHead (l : List Char) : Prop := ∀ c, l.head? = some c → c.isDigit = false

/-! ### Buffer state and orchestrator helper lemmas -/

theorem content_setContent_self (st : BufState) (k : Key) (s : String) :
    (st.setContent k s).content k = s := by
  cases k <;> rfl

theorem content_setContent_ne (st : BufState) (k k2 : Key) (s : String) (h : k2 ≠ k) :
    (st.setContent k s).content k2 = st.content k2 := by
  cases k <;> cases k2 <;> first | rfl | exact absurd rfl h

theorem title_setContent (st : BufState) (k k2 : Key) (s : String) :
    (st.setContent k s).title k2 = st.title k2 := by
  cases k <;> cases k2 <;> rfl

theorem formatPass_title (caps : Caps) (lang : String) :
    ∀ ks st k, (formatPass caps lang st ks).title k = st.title k := by
  intro ks
  induction ks with
  | nil => intro st k; rfl
  | cons k0 ks ih =>
    intro st k
    simp only [formatPass]
    split
    · rw [ih, title_setContent]
    · rw [ih]

theorem formatPass_content_notMem (caps : Caps) (lang : String) :
    ∀ ks st k, k ∉ ks → (formatPass caps lang st ks).content k = st.content k := by
  intro ks
  induction ks with
  | nil => intro st k _; rfl
  | cons k0 ks ih =>
    intro st k hk
    have hne : k ≠ k0 := fun e => hk (e ▸ List.mem_cons_self k0 ks)
    have htl : k ∉ ks := fun e => hk (List.mem_cons_of_mem _ e)
    simp only [formatPass]
    split
    · rw [ih _ _ htl, content_setContent_ne _ _ _ _ hne]
    · rw [ih _ _ htl]

theorem formatPass_content_mem (caps : Caps) (lang : String) :
    ∀ ks st k, ks.Nodup → k ∈ ks →
      (formatPass caps lang st ks).content k = fmtOr caps lang (st.content k) := by
  intro ks
  induction ks with
  | nil => intro st k _ hk; exact absurd hk (List.not_mem_nil k)
  | cons k0 ks ih =>
    intro st k hnd hk
    rcases List.mem_cons.mp hk with he | htl
    · subst he
      have hnm : k ∉ ks := (List.nodup_cons.mp hnd).1
      simp only [formatPass, fmtOr]
      cases hf : formatCode caps (st.content k) lang none with
      | ok f => rw [formatPass_content_notMem _ _ _ _ _ hnm, content_setContent_self]
      | error e => rw [formatPass_content_notMem _ _ _ _ _ hnm]
    · have hne : k ≠ k0 := fun e => (List.nodup_cons.mp hnd).1 (e ▸ htl)
      simp only [formatPass]
      cases hf : formatCode caps (st.content k0) lang none with
      | ok f =>
        rw [ih _ _ (List.nodup_cons.mp hnd).2 htl, content_setContent_ne _ _ _ _ hne]
      | error e => rw [ih _ _ (List.nodup_cons.mp hnd).2 htl]

theorem allKeys_nodup : allKeys.Nodup := by decide

theorem keysWith_nodup (st : BufState) : (keysWith st).Nodup :=
  allKeys_nodup.filter _

theorem mem_keysWith (st : BufState) (k : Key) :
    k ∈ keysWith st ↔ nonBlank st k = true := by
  unfold keysWith
  rw [List.mem_filter]
  have : k ∈ allKeys := by cases k <;> decide
  exact ⟨fun h => h.2, fun h => ⟨this, h⟩⟩

theorem mem_othersWith (st : BufState) (b k : Key) :
    k ∈ othersWith st b ↔ (k ≠ b ∧ nonBlank st k = true) := by
  unfold othersWith
  rw [List.mem_filter, List.mem_filter]
  have : k ∈ allKeys := by cases k <;> decide
  constructor
  · intro h
    exact ⟨by simpa using h.1.2, h.2⟩
  · intro h
    exact ⟨⟨this, by simpa using h.1⟩, h.2⟩

theorem computeAndRenderDiff_ok (caps : Caps) (a b : String)
    (hd : caps.jsdiff = true) (hr : caps.diff2html = true) :
    computeAndRenderDiff caps a b = .ok (idTag a b) := by
  unfold computeAndRenderDiff idTag
  by_cases h : a = b
  · subst h; simp
  · rw [if_neg h]
    have hba : (a == b) = false := by
      simpa using h
    rw [hba]
    by_cases hbl : (jsBlank a && jsBlank b) = true
    · rw [if_pos hbl, hbl]
      simp
    · rw [if_neg hbl, hd, hr]
      rw [if_neg (by decide), if_neg (by decide)]
      have hbf : (jsBlank a && jsBlank b) = false := by
        cases hx : (jsBlank a && jsBlank b) with
        | true => exact absurd hx hbl
        | false => rfl
      rw [hbf]
      rfl

theorem diffLoop_ok (caps : Caps) (base : String) (st : BufState)
    (hd : caps.jsdiff = true) (hr : caps.diff2html = true) :
    ∀ ks, diffLoop caps base st ks = (ks.map (fun k => idTag base (st.content k)), none) := by
  intro ks
  induction ks with
  | nil => rfl
  | cons k ks ih =>
    simp only [diffLoop, computeAndRenderDiff_ok caps _ _ hd hr, ih, List.map_cons]

/-- Shape of one valid handleDiff invocation when both diff libraries are
present: the state after the pre-formatting pass, the aggregate report, and
one classification per non-blank candidate. -/
theorem handleDiff_valid (caps : Caps) (st : BufState) (baseKey : Key)
    (lang uiD : String)
    (hb : jsBlank (st.content baseKey) = false)
    (ho : othersWith st baseKey ≠ [])
    (hd : caps.jsdiff = true) (hr : caps.diff2html = true) :
    handleDiff caps st baseKey lang uiD =
      ((formatPass caps lang st (keysWith st)),
       (if ((othersWith st baseKey).map (fun k =>
              idTag ((formatPass caps lang st (keysWith st)).content baseKey)
                ((formatPass caps lang st (keysWith st)).content k))).all (fun b => b)
        then Report.noDifferences
        else Report.diffComputed (othersWith st baseKey).length),
       (othersWith st baseKey).map (fun k =>
          idTag ((formatPass caps lang st (keysWith st)).content baseKey)
            ((formatPass caps lang st (keysWith st)).content k))) := by
  unfold handleDiff
  rw [if_neg (by rw [hb]; rintro ⟨h1, h2⟩; exact absurd h1 (by decide)),
      if_neg (by rw [hb]; decide),
      if_neg ho]
  simp only [diffLoop_ok caps _ _ hd hr]
  split <;> rfl

theorem handleDiff_fst (caps : Caps) (st : BufState) (baseKey : Key)
    (lang uiD : String)
    (hb : jsBlank (st.content baseKey) = false)
    (ho : othersWith st baseKey ≠ []) :
    (handleDiff caps st baseKey lang uiD).1 = formatPass caps lang st (keysWith st) := by
  unfold handleDiff
  rw [if_neg (by rw [hb]; rintro ⟨h1, _⟩; exact absurd h1 (by decide)),
      if_neg (by rw [hb]; decide),
      if_neg ho]
  rcases hdl : diffLoop caps ((formatPass caps lang st (keysWith st)).content baseKey)
      (formatPass caps lang st (keysWith st)) (othersWith st baseKey) with ⟨results, e⟩
  cases e <;> simp [hdl] <;> split <;> rfl

theorem formatCode_sql (caps : Caps) (code : String) (hb : jsBlank code = false) :
    formatCode caps code "sql" none =
      match caps.sqlFormatter with
      | none => .error "SQL formatter is not loaded. Check your internet connection."
      | some f => f code (sqlFormatterOpts "sql") := by
  unfold formatCode
  rw [if_neg (by rw [hb]; decide), if_neg (by decide), if_neg (by decide),
      if_neg (by decide), if_neg (by decide), if_pos rfl]
  rfl

/-! ### Claim theorems -/

/-- C1: for every handleDiff invocation that passes validation (and with
both diff libraries present), the aggregate status is the no-differences
success status iff every collected per-pair classification is `identical`
(otherwise the diff-computed status), and the number of comparisons
performed equals the number of non-base buffers whose trimmed content is
non-empty. -/
theorem C1_aggregate_status (caps : Caps) (st : BufState) (baseKey : Key)
    (language uiD : String)
    (hb : jsBlank (st.content baseKey) = false)
    (ho : othersWith st baseKey ≠ [])
    (hd : caps.jsdiff = true) (hr : caps.diff2html = true) :
    ((handleDiff caps st baseKey language uiD).2.2).length = (othersWith st baseKey).length
    ∧ ((handleDiff caps st baseKey language uiD).2.1 = Report.noDifferences ↔
        ((handleDiff caps st baseKey language uiD).2.2).all (fun b => b) = true)
    ∧ (((handleDiff caps st baseKey language uiD).2.2).all (fun b => b) = false →
        (handleDiff caps st baseKey language uiD).2.1 =
          Report.diffComputed (othersWith st baseKey).length) := by
  rw [handleDiff_valid caps st baseKey language uiD hb ho hd hr]
  refine ⟨List.length_map _ _, ?_, ?_⟩
  · show (if _ then Report.noDifferences else _) = Report.noDifferences ↔ _
    split
    next hc => simp [hc]
    next hc => simp [hc]
  · intro h
    show (if _ then Report.noDifferences else _) = _
    rw [if_neg (by rw [h]; decide)]

/-- C1 witness: three buffers all holding "x", base A, json language with
no external capabilities: aggregate reports no differences and both
comparisons are collected. -/
theorem C1_aggregate_status_witness :
    jsBlank ((⟨"x", "x", "x", "", "", ""⟩ : BufState).content Key.A) = false
    ∧ othersWith (⟨"x", "x", "x", "", "", ""⟩ : BufState) Key.A ≠ []
    ∧ (othersWith (⟨"x", "x", "x", "", "", ""⟩ : BufState) Key.A).length = 2
    ∧ ((handleDiff (⟨none, none, none, none, none, true, true⟩ : Caps)
          (⟨"x", "x", "x", "", "", ""⟩ : BufState) Key.A "json" "").2.2).length = 2
    ∧ (handleDiff (⟨none, none, none, none, none, true, true⟩ : Caps)
          (⟨"x", "x", "x", "", "", ""⟩ : BufState) Key.A "json" "").2.1 =
        Report.noDifferences := by
  have h := C1_aggregate_status (⟨none, none, none, none, none, true, true⟩ : Caps)
    (⟨"x", "x", "x", "", "", ""⟩ : BufState) Key.A "json" ""
    (by decide) (by decide) rfl rfl
  refine ⟨by decide, by decide, by decide, ?_, ?_⟩
  · rw [h.1]
    decide
  · exact h.2.1.mpr (by decide)

/-- C2: handleDiff validation is the source-order trichotomy on trimmed
contents: empty base with a non-empty candidate gives the base-empty
error; non-empty base with all candidates empty gives the
insufficient-input error; all buffers empty gives the nothing-to-compare
error; in every failure case the buffers are untouched and no comparison
is performed. -/
theorem C2_validation_trichotomy (caps : Caps) (st : BufState) (baseKey : Key)
    (language uiD : String) :
    (jsBlank (st.content baseKey) = true → othersWith st baseKey ≠ [] →
      handleDiff caps st baseKey language uiD =
        (st, Report.statusErr "Base editor is empty", []))
    ∧ (jsBlank (st.content baseKey) = false → othersWith st baseKey = [] →
      handleDiff caps st baseKey language uiD =
        (st, Report.statusErr "Enter content in at least one other editor", []))
    ∧ (jsBlank (st.content baseKey) = true → othersWith st baseKey = [] →
      handleDiff caps st baseKey language uiD =
        (st, Report.statusErr "Enter content in at least two editors", [])) := by
  refine ⟨fun h1 h2 => ?_, fun h1 h2 => ?_, fun h1 h2 => ?_⟩ <;> unfold handleDiff
  · rw [if_neg (fun hc => h2 hc.2), if_pos h1]
  · rw [if_neg (fun hc => by rw [h1] at hc; exact absurd hc.1 (by decide)),
        if_neg (by rw [h1]; decide), if_pos h2]
  · rw [if_pos ⟨h1, h2⟩]

/-- C2 witness: the three failure shapes at concrete buffer states. -/
theorem C2_validation_trichotomy_witness :
    handleDiff (⟨none, none, none, none, none, true, true⟩ : Caps)
        (⟨"", "x", "", "", "", ""⟩ : BufState) Key.A "json" "" =
      ((⟨"", "x", "", "", "", ""⟩ : BufState),
        Report.statusErr "Base editor is empty", [])
    ∧ handleDiff (⟨none, none, none, none, none, true, true⟩ : Caps)
        (⟨"x", " ", "", "", "", ""⟩ : BufState) Key.A "json" "" =
      ((⟨"x", " ", "", "", "", ""⟩ : BufState),
        Report.statusErr "Enter content in at least one other editor", [])
    ∧ handleDiff (⟨none, none, none, none, none, true, true⟩ : Caps)
        (⟨"", "", " ", "", "", ""⟩ : BufState) Key.A "json" "" =
      ((⟨"", "", " ", "", "", ""⟩ : BufState),
        Report.statusErr "Enter content in at least two editors", []) := by
  refine ⟨?_, ?_, ?_⟩
  · exact (C2_validation_trichotomy _ _ Key.A "json" "").1 (by decide) (by decide)
  · exact (C2_validation_trichotomy _ _ Key.A "json" "").2.1 (by decide) (by decide)
  · exact (C2_validation_trichotomy _ _ Key.A "json" "").2.2 (by decide) (by decide)

/-- C3: on a validation-passing invocation (with the diff libraries
present) the pre-formatting pass persistently replaces the content of
every non-blank buffer with the formatted text when formatCode succeeds,
leaves it exactly unchanged when formatCode fails, leaves blank buffers
and all titles alone, and the comparison still proceeds: the invocation
ends in a success status, never in an error caused by formatting. -/
theorem C3_preformat_pass (caps : Caps) (st : BufState) (baseKey : Key)
    (language uiD : String)
    (hb : jsBlank (st.content baseKey) = false)
    (ho : othersWith st baseKey ≠ [])
    (hd : caps.jsdiff = true) (hr : caps.diff2html = true) :
    (∀ k, nonBlank st k = true →
      (∀ f, formatCode caps (st.content k) language none = .ok f →
        ((handleDiff caps st baseKey language uiD).1).content k = f)
      ∧ (∀ e, formatCode caps (st.content k) language none = .error e →
        ((handleDiff caps st baseKey language uiD).1).content k = st.content k))
    ∧ (∀ k, nonBlank st k = false →
        ((handleDiff caps st baseKey language uiD).1).content k = st.content k)
    ∧ (∀ k, ((handleDiff caps st baseKey language uiD).1).title k = st.title k)
    ∧ ((handleDiff caps st baseKey language uiD).2.1 = Report.noDifferences ∨
       (handleDiff caps st baseKey language uiD).2.1 =
         Report.diffComputed (othersWith st baseKey).length) := by
  have hfst := handleDiff_fst caps st baseKey language uiD hb ho
  refine ⟨?_, ?_, ?_, ?_⟩
  · intro k hk
    have hc := formatPass_content_mem caps language (keysWith st) st k
      (keysWith_nodup st) ((mem_keysWith st k).mpr hk)
    constructor
    · intro f hf
      rw [hfst, hc]
      unfold fmtOr
      rw [hf]
    · intro e he
      rw [hfst, hc]
      unfold fmtOr
      rw [he]
  · intro k hk
    rw [hfst]
    exact formatPass_content_notMem caps language _ st k
      (fun hm => by rw [(mem_keysWith st k).mp hm] at hk; cases hk)
  · intro k
    rw [hfst]
    exact formatPass_title caps language _ st k
  · rw [handleDiff_valid caps st baseKey language uiD hb ho hd hr]
    show (if _ then Report.noDifferences else _) = _ ∨ _
    split
    · exact Or.inl rfl
    · exact Or.inr rfl

/-- C3 witness: base holds valid JSON (gets re-serialized in place),
candidate holds invalid JSON (formatting fails, raw text kept), and the
comparison still completes with a success status. -/
theorem C3_preformat_pass_witness :
    formatCode (⟨none, none, none, none, none, true, true⟩ : Caps) "[1]" "json" none =
      .ok "[\n  1\n]\n"
    ∧ ((handleDiff (⟨none, none, none, none, none, true, true⟩ : Caps)
          (⟨"[1]", "x", "", "", "", ""⟩ : BufState) Key.A "json" "").1).content Key.A =
        "[\n  1\n]\n"
    ∧ ((handleDiff (⟨none, none, none, none, none, true, true⟩ : Caps)
          (⟨"[1]", "x", "", "", "", ""⟩ : BufState) Key.A "json" "").1).content Key.B = "x"
    ∧ ((handleDiff (⟨none, none, none, none, none, true, true⟩ : Caps)
          (⟨"[1]", "x", "", "", "", ""⟩ : BufState) Key.A "json" "").2.1 =
        Report.diffComputed 1) := by
  have h := C3_preformat_pass (⟨none, none, none, none, none, true, true⟩ : Caps)
    (⟨"[1]", "x", "", "", "", ""⟩ : BufState) Key.A "json" ""
    (by decide) (by decide) rfl rfl
  refine ⟨rfl, ?_, ?_, ?_⟩
  · exact (h.1 Key.A (by decide)).1 "[\n  1\n]\n" rfl
  · exact (h.1 Key.B (by decide)).2 "Invalid JSON: Unexpected token in JSON" rfl
  · rcases h.2.2.2 with hnd | hdc
    · exact absurd (((C1_aggregate_status (⟨none, none, none, none, none, true, true⟩ : Caps)
        (⟨"[1]", "x", "", "", "", ""⟩ : BufState) Key.A "json" ""
        (by decide) (by decide) rfl rfl).2.1).mp hnd) (by decide)
    · exact hdc

/-- C4: with both diff libraries present, computeAndRenderDiff classifies
a pair as identical exactly when the two strings are equal or both are
whitespace-only, and as changed in every other case (including a pair
differing only in a trailing newline). -/
theorem C4_diff_classification (caps : Caps) (a b : String)
    (hd : caps.jsdiff = true) (hr : caps.diff2html = true) :
    (computeAndRenderDiff caps a b = .ok true ↔
      (a = b ∨ (jsBlank a = true ∧ jsBlank b = true)))
    ∧ (¬ a = b → ¬ (jsBlank a = true ∧ jsBlank b = true) →
        computeAndRenderDiff caps a b = .ok false) := by
  rw [computeAndRenderDiff_ok caps a b hd hr]
  constructor
  · constructor
    · intro h
      have hx : idTag a b = true := by
        cases hy : idTag a b with
        | true => rfl
        | false => rw [hy] at h; cases h
      unfold idTag at hx
      simpa using hx
    · intro h
      have hx : idTag a b = true := by
        unfold idTag
        simpa using h
      rw [hx]
  · intro hne hbl
    have hx : idTag a b = false := by
      cases hy : idTag a b with
      | false => rfl
      | true =>
        unfold idTag at hy
        simp at hy
        rcases hy with e | e
        · exact absurd e hne
        · exact absurd e hbl
    rw [hx]

/-- C4 witness: "t" versus "t\n" (trailing newline only) is classified as
changed, while two whitespace-only strings are identical. -/
theorem C4_diff_classification_witness :
    computeAndRenderDiff (⟨none, none, none, none, none, true, true⟩ : Caps) "t" "t\n" =
      .ok false
    ∧ computeAndRenderDiff (⟨none, none, none, none, none, true, true⟩ : Caps) " " "\t" =
      .ok true := by
  constructor
  · exact (C4_diff_classification _ "t" "t\n" rfl rfl).2 (by decide)
      (by intro h; exact absurd h.2 (by decide))
  · exact (C4_diff_classification _ " " "\t" rfl rfl).1.mpr (Or.inr ⟨by decide, by decide⟩)

/-- C7: handleCycle is the pure total permutation A gets C, B gets A,
C gets B on both contents and titles, and applying it three times is the
identity on the whole buffer state. -/
theorem C7_rotation (st : BufState) :
    (handleCycle st).content Key.A = st.content Key.C
    ∧ (handleCycle st).content Key.B = st.content Key.A
    ∧ (handleCycle st).content Key.C = st.content Key.B
    ∧ (handleCycle st).title Key.A = st.title Key.C
    ∧ (handleCycle st).title Key.B = st.title Key.A
    ∧ (handleCycle st).title Key.C = st.title Key.B
    ∧ handleCycle (handleCycle (handleCycle st)) = st :=
  ⟨rfl, rfl, rfl, rfl, rfl, rfl, rfl⟩

/-- C8: the diff classification outcome is symmetric in the two texts:
swapping base and candidate gives the same result (identical, changed, or
the same library error). -/
theorem C8_diff_symmetric (caps : Caps) (a b : String) :
    computeAndRenderDiff caps a b = computeAndRenderDiff caps b a := by
  unfold computeAndRenderDiff
  by_cases h : a = b
  · subst h; rfl
  · have h2 : ¬ b = a := fun e => h e.symm
    rw [if_neg h, if_neg h2]
    by_cases hbl : (jsBlank a && jsBlank b) = true
    · have hbl2 : (jsBlank b && jsBlank a) = true := by
        rw [Bool.and_comm]; exact hbl
      rw [if_pos hbl, if_pos hbl2]
    · have hbl2 : ¬ (jsBlank b && jsBlank a) = true := by
        rw [Bool.and_comm]; exact hbl
      rw [if_neg hbl, if_neg hbl2]

/-- C9 counterexample: the claim says the xml options include an
indentation-of-nested-markup flag as html has; but the option object
formatXML passes carries no indent_inner_html entry, while the one
formatHTML passes does. -/
theorem C9_xml_options_counterexample :
    xmlBeautifyOpts.indent_inner_html = none
    ∧ htmlBeautifyOpts.indent_inner_html = some true := ⟨rfl, rfl⟩

/-- C9 (amended): for xml the dispatcher delegates to the generic
(html_beautify) beautifier capability with fixed options 2-space indent,
at most 2 preserved consecutive blank lines, enforced trailing newline,
wrap at 120 columns, and empty unformatted / content_unformatted lists —
but, unlike html, without the nested-markup indentation flag. -/
theorem C9_xml_options_amended (caps : Caps) (code : String)
    (f : String → BeautifyOpts → Except String String)
    (hcap : caps.html_beautify = some f) :
    formatXML caps code = f code xmlBeautifyOpts
    ∧ formatHTML caps code = f code htmlBeautifyOpts
    ∧ xmlBeautifyOpts.indent_size = some 2
    ∧ xmlBeautifyOpts.preserve_newlines = some true
    ∧ xmlBeautifyOpts.max_preserve_newlines = some 2
    ∧ xmlBeautifyOpts.end_with_newline = some true
    ∧ xmlBeautifyOpts.wrap_line_length = some 120
    ∧ xmlBeautifyOpts.content_unformatted = some []
    ∧ xmlBeautifyOpts.unformatted = some []
    ∧ xmlBeautifyOpts.indent_inner_html = none
    ∧ htmlBeautifyOpts.indent_inner_html = some true := by
  unfold formatXML formatHTML
  rw [hcap]
  exact ⟨rfl, rfl, rfl, rfl, rfl, rfl, rfl, rfl, rfl, rfl, rfl⟩

/-- C9 witness: the amended statement at a concrete capability. -/
theorem C9_xml_options_amended_witness :
    formatXML (⟨none, some (fun c _ => .ok c), none, none, none, false, false⟩ : Caps)
        "<a><b/></a>" = .ok "<a><b/></a>"
    ∧ xmlBeautifyOpts.wrap_line_length = some 120
    ∧ xmlBeautifyOpts.indent_inner_html = none := by
  have h := C9_xml_options_amended
    (⟨none, some (fun c _ => .ok c), none, none, none, false, false⟩ : Caps)
    "<a><b/></a>" (fun c _ => .ok c) rfl
  exact ⟨h.1, h.2.2.2.2.2.2.1, h.2.2.2.2.2.2.2.2.2.1⟩

/-- C10 (implicit): handleDiff calls formatCode without an options object,
so with language sql the pre-formatting of every non-blank buffer reaches
the sql formatter capability with the generic "sql" dialect in its option
object, regardless of the dialect selected in the page UI (which the
result does not depend on at all). -/
theorem C10_sql_dialect_default (caps : Caps) (st : BufState) (baseKey : Key)
    (uiD1 uiD2 : String)
    (hb : jsBlank (st.content baseKey) = false)
    (ho : othersWith st baseKey ≠ []) :
    handleDiff caps st baseKey "sql" uiD1 = handleDiff caps st baseKey "sql" uiD2
    ∧ (sqlFormatterOpts "sql").language = "sql"
    ∧ (∀ k f, nonBlank st k = true → caps.sqlFormatter = some f →
        ((handleDiff caps st baseKey "sql" uiD1).1).content k =
          (match f (st.content k) (sqlFormatterOpts "sql") with
           | .ok s => s
           | .error _ => st.content k)) := by
  refine ⟨rfl, rfl, ?_⟩
  intro k f hk hcap
  rw [handleDiff_fst caps st baseKey "sql" uiD1 hb ho,
      formatPass_content_mem caps "sql" (keysWith st) st k
        (keysWith_nodup st) ((mem_keysWith st k).mpr hk)]
  unfold fmtOr
  have hnb : jsBlank (st.content k) = false := by
    have := hk
    unfold nonBlank at this
    cases hx : jsBlank (st.content k) with
    | false => rfl
    | true => rw [hx] at this; cases this
  rw [formatCode_sql caps (st.content k) hnb, hcap]

/-- C10 witness: with a capability that records the dialect it received,
both buffers are formatted with the generic "sql" dialect and the outcome
is the same for two different UI dialect selections. -/
theorem C10_sql_dialect_default_witness :
    handleDiff (⟨none, none, none, none,
        some (fun c o => .ok (o.language ++ ":" ++ c)), true, true⟩ : Caps)
      (⟨"select 1", "b", "", "", "", ""⟩ : BufState) Key.A "sql" "mysql" =
    handleDiff (⟨none, none, none, none,
        some (fun c o => .ok (o.language ++ ":" ++ c)), true, true⟩ : Caps)
      (⟨"select 1", "b", "", "", "", ""⟩ : BufState) Key.A "sql" "postgresql"
    ∧ ((handleDiff (⟨none, none, none, none,
          some (fun c o => .ok (o.language ++ ":" ++ c)), true, true⟩ : Caps)
        (⟨"select 1", "b", "", "", "", ""⟩ : BufState) Key.A "sql" "mysql").1).content Key.A =
      "sql:select 1" := by
  have h := C10_sql_dialect_default (⟨none, none, none, none,
      some (fun c o => .ok (o.language ++ ":" ++ c)), true, true⟩ : Caps)
    (⟨"select 1", "b", "", "", "", ""⟩ : BufState) Key.A "mysql" "postgresql"
    (by decide) (by decide)
  exact ⟨h.1, h.2.2 Key.A (fun c o => .ok (o.language ++ ":" ++ c)) (by decide) rfl⟩

/-! ### formatPython idempotence: step lemmas -/

theorem replCRLF_id : ∀ l : List Char, '\r' ∉ l → replCRLF l = l := by
  intro l
  induction l with
  | nil => intro _; rfl
  | cons c rest ih =>
    intro h
    have hc : c ≠ '\r' := fun e => h (e ▸ List.mem_cons_self c rest)
    have ht : '\r' ∉ rest := fun e => h (List.mem_cons_of_mem _ e)
    cases rest with
    | nil => rfl
    | cons d rest2 =>
      show replCRLF (c :: d :: rest2) = c :: d :: rest2
      rw [replCRLF, if_neg (fun hcd => hc hcd.1), ih ht]

theorem replCR_id : ∀ l : List Char, '\r' ∉ l → replCR l = l := by
  intro l
  induction l with
  | nil => intro _; rfl
  | cons c rest ih =>
    intro h
    have hc : c ≠ '\r' := fun e => h (e ▸ List.mem_cons_self c rest)
    have ht : '\r' ∉ rest := fun e => h (List.mem_cons_of_mem _ e)
    show (if c = '\r' then '\n' else c) :: replCR rest = c :: rest
    rw [if_neg hc, ih ht]

theorem expandTabs_id : ∀ l : List Char, '\t' ∉ l → expandTabs l = l := by
  intro l
  induction l with
  | nil => intro _; rfl
  | cons c rest ih =>
    intro h
    have hc : c ≠ '\t' := fun e => h (e ▸ List.mem_cons_self c rest)
    have ht : '\t' ∉ rest := fun e => h (List.mem_cons_of_mem _ e)
    show (if c = '\t' then [' ', ' ', ' ', ' '] else [c]) ++ expandTabs rest = c :: rest
    rw [if_neg hc, ih ht]
    rfl

theorem splitNl_ne_nil : ∀ l : List Char, splitNl l ≠ [] := by
  intro l
  cases l with
  | nil => exact fun h => by cases h
  | cons c rest =>
    show (if c = '\n' then [] :: splitNl rest
          else match splitNl rest with
               | l :: ls => (c :: l) :: ls
               | [] => [[c]]) ≠ []
    split
    · exact fun h => by cases h
    · split
      · exact fun h => by cases h
      · exact fun h => by cases h

theorem splitNl_cons_nl (rest : List Char) : splitNl ('\n' :: rest) = [] :: splitNl rest := by
  show (if ('\n' : Char) = '\n' then _ else _) = _
  rw [if_pos rfl]

theorem splitNl_cons_ne (c : Char) (rest : List Char) (hc : c ≠ '\n') :
    ∃ l0 ls0, splitNl rest = l0 :: ls0 ∧ splitNl (c :: rest) = (c :: l0) :: ls0 := by
  rcases hs : splitNl rest with _ | ⟨l0, ls0⟩
  · exact absurd hs (splitNl_ne_nil rest)
  · refine ⟨l0, ls0, rfl, ?_⟩
    show (if c = '\n' then [] :: splitNl rest
          else match splitNl rest with
               | l :: ls => (c :: l) :: ls
               | [] => [[c]]) = (c :: l0) :: ls0
    rw [if_neg hc, hs]

theorem splitNl_no_nl : ∀ l : List Char, ∀ m ∈ splitNl l, '\n' ∉ m := by
  intro l
  induction l with
  | nil =>
    intro m hm
    have hsp : splitNl ([] : List Char) = [[]] := rfl
    rw [hsp, List.mem_singleton] at hm
    simp [hm]
  | cons c rest ih =>
    intro m hm
    by_cases hc : c = '\n'
    · subst hc
      rw [splitNl_cons_nl] at hm
      rcases List.mem_cons.mp hm with he | ht
      · simp [he]
      · exact ih m ht
    · rcases splitNl_cons_ne c rest hc with ⟨l0, ls0, hs, he⟩
      rw [he] at hm
      rcases List.mem_cons.mp hm with h1 | h2
      · subst h1
        intro hmem
        rcases List.mem_cons.mp hmem with h3 | h4
        · exact hc h3.symm
        · exact ih l0 (hs ▸ List.mem_cons_self l0 ls0) h4
      · exact ih m (hs ▸ List.mem_cons_of_mem l0 h2)

theorem joinNl_cons (m : List Char) (ls : List (List Char)) :
    joinNl (m :: ls) = m ++ (match ls with | [] => [] | _ :: _ => '\n' :: joinNl ls) := by
  cases ls with
  | nil => show joinNl [m] = m ++ []; rw [List.append_nil]; rfl
  | cons l2 ls2 => rfl

theorem joinNl_splitNl : ∀ l : List Char, joinNl (splitNl l) = l := by
  intro l
  induction l with
  | nil => rfl
  | cons c rest ih =>
    by_cases hc : c = '\n'
    · subst hc
      rw [splitNl_cons_nl]
      rcases hs : splitNl rest with _ | ⟨l0, ls0⟩
      · exact absurd hs (splitNl_ne_nil rest)
      · show '\n' :: joinNl (l0 :: ls0) = '\n' :: rest
        congr 1
        rw [← hs]
        exact ih
    · rcases splitNl_cons_ne c rest hc with ⟨l0, ls0, hs, he⟩
      rw [he, joinNl_cons]
      have := ih
      rw [hs, joinNl_cons] at this
      rw [List.cons_append, this]

theorem rstripLine_eq_rdropWhile (m : List Char) :
    rstripLine m = List.rdropWhile jsWS m := rfl

theorem rstrip_nil_iff (m : List Char) :
    rstripLine m = [] ↔ ∀ x ∈ m, jsWS x = true := by
  rw [rstripLine_eq_rdropWhile]
  exact List.rdropWhile_eq_nil_iff

theorem rstrip_idem (m : List Char) : rstripLine (rstripLine m) = rstripLine m := by
  rw [rstripLine_eq_rdropWhile, rstripLine_eq_rdropWhile]
  exact List.rdropWhile_idempotent jsWS m

theorem rstrip_last (m : List Char) (h : rstripLine m ≠ []) :
    jsWS ((rstripLine m).getLast h) = false := by
  cases hx : jsWS ((rstripLine m).getLast h) with
  | false => rfl
  | true => exact absurd hx (List.rdropWhile_last_not jsWS m h)

theorem mem_rstrip (m : List Char) (c : Char) (h : c ∈ rstripLine m) : c ∈ m := by
  unfold rstripLine at h
  rw [List.mem_reverse] at h
  have := (List.IsSuffix.sublist (List.dropWhile_suffix jsWS)).subset h
  rw [List.mem_reverse] at this
  exact this

theorem rstrip_cons (c : Char) (m : List Char) :
    rstripLine (c :: m) =
      if jsWS c = true ∧ rstripLine m = [] then [] else c :: rstripLine m := by
  unfold rstripLine
  rw [List.reverse_cons, List.dropWhile_append]
  by_cases hnil : (m.reverse.dropWhile jsWS).isEmpty = true
  · rw [if_pos hnil]
    have hms : (m.reverse.dropWhile jsWS).reverse = [] := by
      rw [List.isEmpty_iff] at hnil
      rw [hnil, List.reverse_nil]
    by_cases hc : jsWS c = true
    · rw [if_pos ⟨hc, hms⟩, List.dropWhile_cons_of_pos hc]
      rfl
    · rw [if_neg (fun hand => hc hand.1), List.dropWhile_cons_of_neg hc, hms]
      rfl
  · have hms : (m.reverse.dropWhile jsWS).reverse ≠ [] := by
      intro he
      rw [List.isEmpty_iff] at hnil
      exact hnil (by
        have h2 := congrArg List.reverse he
        rwa [List.reverse_reverse, List.reverse_nil] at h2)
    rw [if_neg hnil, if_neg (fun hand => hms hand.2), List.reverse_append]
    rfl

/-! ### badPair lemmas -/

theorem badPair_cons (c : Char) (w : List Char) :
    badPair (c :: w) = ((wsNoNl c && nlOrEnd w) || badPair w) := rfl

theorem badPair_tail (c : Char) (w : List Char) (h : badPair (c :: w) = false) :
    badPair w = false := by
  rw [badPair_cons] at h
  exact (Bool.or_eq_false_iff.mp h).2

theorem badPair_not_first (c : Char) (w : List Char) (h : badPair (c :: w) = false) :
    (wsNoNl c && nlOrEnd w) = false := by
  rw [badPair_cons] at h
  exact (Bool.or_eq_false_iff.mp h).1

theorem wsNoNl_nl : wsNoNl '\n' = false := by decide

theorem nlOrEnd_cons (d : Char) (w : List Char) : nlOrEnd (d :: w) = decide (d = '\n') := rfl

theorem badPair_append_line (m : List Char) (hnl : '\n' ∉ m)
    (hlast : ∀ h : m ≠ [], jsWS (m.getLast h) = false) :
    ∀ r, badPair (m ++ r) = badPair r := by
  induction m with
  | nil => intro r; rfl
  | cons c m2 ih =>
    intro r
    rw [List.cons_append, badPair_cons]
    cases m2 with
    | nil =>
      have hc : jsWS c = false := hlast (by intro h; cases h)
      have : wsNoNl c = false := by unfold wsNoNl; rw [hc]; rfl
      rw [this]
      rfl
    | cons d m3 =>
      have hd : d ≠ '\n' := fun e => hnl (e ▸ List.mem_cons_of_mem c (List.mem_cons_self d m3))
      have hnd : nlOrEnd ((d :: m3) ++ r) = false := by
        rw [List.cons_append, nlOrEnd_cons]
        simp [hd]
      rw [hnd, Bool.and_false, Bool.false_or]
      refine ih (fun e => hnl (List.mem_cons_of_mem c e)) ?_ r
      intro h
      have : (c :: d :: m3).getLast (by intro he; cases he) = (d :: m3).getLast h := by
        rw [List.getLast_cons]
      rw [← this]
      exact hlast _

theorem lines_badPair : ∀ L : List (List Char), L ≠ [] →
    (∀ m ∈ L, '\n' ∉ m ∧ (∀ h : m ≠ [], jsWS (m.getLast h) = false)) →
    badPair (joinNl L) = false := by
  intro L
  induction L with
  | nil => intro h _; exact absurd rfl h
  | cons m L2 ih =>
    intro _ hm
    rw [joinNl_cons]
    cases L2 with
    | nil =>
      have h1 := hm m (List.mem_cons_self m [])
      rw [badPair_append_line m h1.1 h1.2]
      rfl
    | cons m2 L3 =>
      have h1 := hm m (List.mem_cons_self m (m2 :: L3))
      rw [badPair_append_line m h1.1 h1.2, badPair_cons, wsNoNl_nl]
      show (false && _ || badPair (joinNl (m2 :: L3))) = false
      rw [Bool.false_and, Bool.false_or]
      exact ih (by intro h; cases h) (fun m3 hm3 => hm m3 (List.mem_cons_of_mem m hm3))

/-! ### collapseNl lemmas -/

theorem collapse_nil : collapseNl [] = [] := rfl

theorem collapse_cons_ne (c : Char) (t : List Char) (hc : c ≠ '\n') :
    collapseNl (c :: t) = c :: collapseNl t := by
  show (if c = '\n' then nlRun 1 t else c :: collapseNl t) = _
  rw [if_neg hc]

theorem collapse_cons_nl (t : List Char) : collapseNl ('\n' :: t) = nlRun 1 t := by
  show (if ('\n' : Char) = '\n' then nlRun 1 t else _) = _
  rw [if_pos rfl]

theorem nlRun_eq : ∀ (z : List Char) (k : Nat),
    nlRun k z = List.replicate (min (k + leadNl z) 3) '\n' ++
      (match restNl z with | [] => [] | c :: t => c :: collapseNl t) := by
  intro z
  induction z with
  | nil =>
    intro k
    show List.replicate (min k 3) '\n' = _
    have h1 : leadNl ([] : List Char) = 0 := rfl
    have h2 : restNl ([] : List Char) = [] := rfl
    rw [h1, h2, List.append_nil, Nat.add_zero]
  | cons c t ih =>
    intro k
    by_cases hc : c = '\n'
    · subst hc
      have h1 : leadNl ('\n' :: t) = 1 + leadNl t := by
        unfold leadNl
        rw [List.takeWhile_cons_of_pos (by decide), List.length_cons]
        omega
      have h2 : restNl ('\n' :: t) = restNl t := by
        unfold restNl
        rw [List.dropWhile_cons_of_pos (by decide)]
      show nlRun (k + 1) t = _
      rw [ih (k + 1), h1, h2]
      have : k + 1 + leadNl t = k + (1 + leadNl t) := by omega
      rw [this]
    · have h1 : leadNl (c :: t) = 0 := by
        unfold leadNl
        rw [List.takeWhile_cons_of_neg (by simpa using hc)]
        rfl
      have h2 : restNl (c :: t) = c :: t := by
        unfold restNl
        rw [List.dropWhile_cons_of_neg (by simpa using hc)]
      show (if c = '\n' then nlRun (k + 1) t
            else List.replicate (min k 3) '\n' ++ c :: collapseNl t) = _
      rw [if_neg hc, h1, h2, Nat.add_zero]

theorem collapse_head? (z : List Char) : (collapseNl z).head? = z.head? := by
  cases z with
  | nil => rfl
  | cons c t =>
    by_cases hc : c = '\n'
    · subst hc
      rw [collapse_cons_nl, nlRun_eq]
      have h3 : min (1 + leadNl t) 3 = (min (1 + leadNl t) 3 - 1) + 1 := by omega
      rw [h3, List.replicate_succ, List.cons_append]
      rfl
    · rw [collapse_cons_ne c t hc]
      rfl

theorem nlOrEnd_head? (w : List Char) :
    nlOrEnd w = match w.head? with | none => true | some d => decide (d = '\n') := by
  cases w <;> rfl

theorem nlOrEnd_collapse (z : List Char) : nlOrEnd (collapseNl z) = nlOrEnd z := by
  rw [nlOrEnd_head?, nlOrEnd_head?, collapse_head?]

theorem badPair_dropWhile (p : Char → Bool) :
    ∀ z : List Char, badPair z = false → badPair (z.dropWhile p) = false := by
  intro z
  induction z with
  | nil => intro h; exact h
  | cons c t ih =>
    intro h
    rw [List.dropWhile_cons]
    split
    · exact ih (badPair_tail c t h)
    · exact h

theorem badPair_nl_runs : ∀ (j : Nat) (w : List Char),
    badPair (List.replicate j '\n' ++ w) = badPair w := by
  intro j
  induction j with
  | zero => intro w; rfl
  | succ j ih =>
    intro w
    rw [List.replicate_succ, List.cons_append, badPair_cons, wsNoNl_nl, Bool.false_and,
        Bool.false_or]
    exact ih w

theorem restNl_head (z : List Char) (c : Char) (t : List Char) (h : restNl z = c :: t) :
    c ≠ '\n' := by
  have hq := List.head?_dropWhile_not (fun x => x = '\n') z
  rw [show z.dropWhile (fun x => x = '\n') = restNl z from rfl, h] at hq
  simpa using hq

theorem lead_rest_decomp (z : List Char) :
    z = List.replicate (leadNl z) '\n' ++ restNl z := by
  have h1 : z.takeWhile (fun c => c = '\n') = List.replicate (leadNl z) '\n' := by
    apply List.eq_replicate_of_mem
    intro b hb
    simpa using List.mem_takeWhile_imp hb
  have h2 := List.takeWhile_append_dropWhile (p := fun c => c = '\n') (l := z)
  rw [h1] at h2
  exact h2.symm

theorem badPair_collapse : ∀ z : List Char, badPair z = false →
    badPair (collapseNl z) = false := by
  have H : ∀ n : Nat, ∀ z : List Char, z.length ≤ n → badPair z = false →
      badPair (collapseNl z) = false := by
    intro n
    induction n with
    | zero =>
      intro z hz _
      rw [List.eq_nil_of_length_eq_zero (Nat.le_zero.mp hz)]
      exact rfl
    | succ n ih =>
      intro z hz hbp
      cases z with
      | nil => exact rfl
      | cons c t =>
        by_cases hc : c = '\n'
        · subst hc
          rw [collapse_cons_nl, nlRun_eq, badPair_nl_runs]
          rcases hr : restNl t with _ | ⟨c2, t2⟩
          · exact rfl
          · have hc2 : c2 ≠ '\n' := restNl_head t c2 t2 hr
            have hbp2 : badPair (c2 :: t2) = false := by
              rw [← hr]
              exact badPair_dropWhile _ t (badPair_tail _ _ hbp)
            have hlen : t2.length ≤ n := by
              have h1 : (c2 :: t2).length ≤ t.length := by
                rw [← hr]
                exact (List.IsSuffix.sublist (List.dropWhile_suffix _)).length_le
              rw [List.length_cons] at h1 hz
              omega
            rw [badPair_cons, nlOrEnd_collapse]
            have h3 := badPair_not_first c2 t2 hbp2
            rw [badPair_cons] at hbp2
            rw [h3, Bool.false_or]
            exact ih t2 hlen (Bool.or_eq_false_iff.mp hbp2).2
        · rw [collapse_cons_ne c t hc, badPair_cons, nlOrEnd_collapse]
          have h3 := badPair_not_first c t hbp
          rw [h3, Bool.false_or]
          have hlen : t.length ≤ n := by
            rw [List.length_cons] at hz
            omega
          exact ih t hlen (badPair_tail c t hbp)
  exact fun z => H z.length z le_rfl

theorem stripTrail_eq_rdropWhile (z : List Char) :
    stripTrailNl z = List.rdropWhile (fun c => c = '\n') z := rfl

theorem stripTrail_decomp (z : List Char) :
    ∃ k : Nat, z = stripTrailNl z ++ List.replicate k '\n' := by
  refine ⟨(List.rtakeWhile (fun c => c = '\n') z).length, ?_⟩
  have h1 : List.rtakeWhile (fun c => c = '\n') z =
      List.replicate (List.rtakeWhile (fun c => c = '\n') z).length '\n' := by
    apply List.eq_replicate_of_mem
    intro b hb
    simpa using List.mem_rtakeWhile_imp hb
  rw [stripTrail_eq_rdropWhile, ← h1]
  have hsplit : List.rdropWhile (fun c => c = '\n') z ++
      List.rtakeWhile (fun c => c = '\n') z = z := by
    rw [List.rdropWhile, List.rtakeWhile, ← List.reverse_append,
        List.takeWhile_append_dropWhile, List.reverse_reverse]
  exact hsplit.symm

theorem stripTrail_last (z : List Char) (h : stripTrailNl z ≠ []) :
    (stripTrailNl z).getLast h ≠ '\n' := by
  intro he
  exact List.rdropWhile_last_not (fun c => c = '\n') z h (by simpa using he)

theorem badPair_append_nls : ∀ (w : List Char) (j : Nat),
    badPair (w ++ List.replicate (j + 1) '\n') = badPair (w ++ ['\n']) := by
  intro w
  induction w with
  | nil =>
    intro j
    rw [List.nil_append, List.nil_append]
    have h1 : badPair (List.replicate (j + 1) '\n') = false := by
      have := badPair_nl_runs (j + 1) []
      rwa [List.append_nil] at this
    rw [h1]
    exact (by decide : badPair ['\n'] = false).symm
  | cons c w2 ih =>
    intro j
    rw [List.cons_append, List.cons_append, badPair_cons, badPair_cons, ih j]
    have : nlOrEnd (w2 ++ List.replicate (j + 1) '\n') = nlOrEnd (w2 ++ ['\n']) := by
      cases w2 with
      | nil =>
        rw [List.nil_append, List.nil_append, List.replicate_succ]
        rfl
      | cons d w3 => rfl
    rw [this]

theorem badPair_snoc_nl : ∀ w : List Char, badPair w = false →
    badPair (w ++ ['\n']) = false := by
  intro w
  induction w with
  | nil => intro _; decide
  | cons c w2 ih =>
    intro h
    rw [List.cons_append, badPair_cons]
    cases w2 with
    | nil =>
      have hc : wsNoNl c = false := by
        have := badPair_not_first c [] h
        rwa [show nlOrEnd ([] : List Char) = true from rfl, Bool.and_true] at this
      rw [List.nil_append, hc, Bool.false_and, Bool.false_or]
      decide
    | cons d w3 =>
      have h1 : nlOrEnd ((d :: w3) ++ ['\n']) = nlOrEnd (d :: w3) := rfl
      rw [h1, badPair_not_first c (d :: w3) h, Bool.false_or]
      exact ih (badPair_tail c (d :: w3) h)

theorem badPair_ensure (z : List Char) (h : badPair z = false) :
    badPair (ensureFinalNl z) = false := by
  unfold ensureFinalNl
  rcases stripTrail_decomp z with ⟨k, hk⟩
  cases k with
  | zero =>
    have hz : stripTrailNl z = z := by
      rw [List.replicate_zero, List.append_nil] at hk
      exact hk.symm
    rw [hz]
    exact badPair_snoc_nl z h
  | succ j =>
    rw [← badPair_append_nls (stripTrailNl z) j, ← hk]
    exact h

theorem badPair_allws : ∀ (m : List Char) (r2 : List Char), m ≠ [] →
    (∀ x ∈ m, jsWS x = true) → (∀ x ∈ m, x ≠ '\n') →
    (r2 = [] ∨ ∃ t, r2 = '\n' :: t) → badPair (m ++ r2) = true := by
  intro m
  induction m with
  | nil => intro r2 h _ _ _; exact absurd rfl h
  | cons d m2 ih =>
    intro r2 _ hws hnl hr2
    rw [List.cons_append, badPair_cons]
    have hd : wsNoNl d = true := by
      unfold wsNoNl
      rw [hws d (List.mem_cons_self d m2)]
      have : d ≠ '\n' := hnl d (List.mem_cons_self d m2)
      simp [this]
    cases m2 with
    | nil =>
      have : nlOrEnd ([] ++ r2) = true := by
        rcases hr2 with he | ⟨t, he⟩ <;> subst he <;> rfl
      rw [this, hd]
      rfl
    | cons e m3 =>
      have h2 : badPair ((e :: m3) ++ r2) = true := by
        refine ih r2 (by intro h; cases h) ?_ ?_ hr2
        · exact fun x hx => hws x (List.mem_cons_of_mem d hx)
        · exact fun x hx => hnl x (List.mem_cons_of_mem d hx)
      rw [h2, Bool.or_true]

theorem st4_id : ∀ y : List Char, badPair y = false →
    joinNl ((splitNl y).map rstripLine) = y := by
  intro y
  induction y with
  | nil => intro _; rfl
  | cons c rest ih =>
    intro hbp
    by_cases hc : c = '\n'
    · subst hc
      rw [splitNl_cons_nl, List.map_cons]
      rcases hs : splitNl rest with _ | ⟨l0, ls0⟩
      · exact absurd hs (splitNl_ne_nil rest)
      · rw [List.map_cons]
        show '\n' :: joinNl (rstripLine l0 :: (ls0.map rstripLine)) = '\n' :: rest
        congr 1
        have hx := ih (badPair_tail _ _ hbp)
        rwa [hs, List.map_cons] at hx
    · rcases splitNl_cons_ne c rest hc with ⟨l0, ls0, hs, he⟩
      rw [he, List.map_cons]
      have hrest : rest = joinNl (l0 :: ls0) := by rw [← hs, joinNl_splitNl]
      have hihr : joinNl (rstripLine l0 :: (ls0.map rstripLine)) = rest := by
        have hx := ih (badPair_tail _ _ hbp)
        rwa [hs, List.map_cons] at hx
      have hnw : ¬ (jsWS c = true ∧ rstripLine l0 = []) := by
        rintro ⟨hcws, hl0⟩
        have hl0ws : ∀ x ∈ l0, jsWS x = true := (rstrip_nil_iff l0).mp hl0
        have hl0nl : '\n' ∉ l0 := splitNl_no_nl rest l0 (hs ▸ List.mem_cons_self l0 ls0)
        have hmws : ∀ x ∈ (c :: l0), jsWS x = true := by
          intro x hx
          rcases List.mem_cons.mp hx with h1 | h2
          · subst h1; exact hcws
          · exact hl0ws x h2
        have hmnl : ∀ x ∈ (c :: l0), x ≠ '\n' := by
          intro x hx
          rcases List.mem_cons.mp hx with h1 | h2
          · subst h1; exact hc
          · exact fun e => hl0nl (e ▸ h2)
        cases ls0 with
        | nil =>
          have hr : rest = l0 := by rw [hrest]; rfl
          have hbad := badPair_allws (c :: l0) [] (by intro h; cases h) hmws hmnl (Or.inl rfl)
          rw [List.append_nil] at hbad
          rw [show (c :: rest) = (c :: l0) from by rw [hr]] at hbp
          rw [hbad] at hbp
          cases hbp
        | cons a b =>
          have hr : rest = l0 ++ '\n' :: joinNl (a :: b) := by rw [hrest]; rfl
          have hbad := badPair_allws (c :: l0) ('\n' :: joinNl (a :: b))
            (by intro h; cases h) hmws hmnl (Or.inr ⟨joinNl (a :: b), rfl⟩)
          rw [show (c :: rest) = (c :: l0) ++ ('\n' :: joinNl (a :: b)) from by
            rw [List.cons_append, hr]] at hbp
          rw [hbad] at hbp
          cases hbp
      rw [rstrip_cons, if_neg hnw]
      show joinNl ((c :: rstripLine l0) :: (ls0.map rstripLine)) = c :: rest
      cases hmap : ls0.map rstripLine with
      | nil =>
        have hj : joinNl ((c :: rstripLine l0) :: ([] : List (List Char))) =
            c :: rstripLine l0 := rfl
        rw [hj]
        have hx := hihr
        rw [hmap] at hx
        have hj2 : joinNl [rstripLine l0] = rstripLine l0 := rfl
        rw [hj2] at hx
        rw [hx]
      | cons a b =>
        have hj : joinNl ((c :: rstripLine l0) :: a :: b) =
            (c :: rstripLine l0) ++ '\n' :: joinNl (a :: b) := rfl
        rw [hj]
        have hx := hihr
        rw [hmap] at hx
        have hj2 : joinNl (rstripLine l0 :: a :: b) =
            rstripLine l0 ++ '\n' :: joinNl (a :: b) := rfl
        rw [hj2] at hx
        rw [List.cons_append, hx]

/-! ### noQuad lemmas -/

theorem noQuad_nil : noQuad [] = true := by rw [noQuad]

theorem noQuad_cons (c : Char) (t : List Char) :
    noQuad (c :: t) =
      if c = '\n' then decide (leadNl t ≤ 2) && noQuad (restNl t) else noQuad t := by
  rw [noQuad]

theorem leadNl_cons_ne (c : Char) (w : List Char) (hc : c ≠ '\n') : leadNl (c :: w) = 0 := by
  unfold leadNl
  rw [List.takeWhile_cons_of_neg (by simpa using hc)]
  rfl

theorem restNl_cons_ne (c : Char) (w : List Char) (hc : c ≠ '\n') : restNl (c :: w) = c :: w := by
  unfold restNl
  rw [List.dropWhile_cons_of_neg (by simpa using hc)]

theorem leadNl_cons_nl (w : List Char) : leadNl ('\n' :: w) = 1 + leadNl w := by
  unfold leadNl
  rw [List.takeWhile_cons_of_pos (by decide), List.length_cons]
  omega

theorem restNl_cons_nl (w : List Char) : restNl ('\n' :: w) = restNl w := by
  unfold restNl
  rw [List.dropWhile_cons_of_pos (by decide)]

theorem leadNl_replicate_append (k : Nat) (w : List Char) :
    leadNl (List.replicate k '\n' ++ w) = k + leadNl w := by
  induction k with
  | zero => rw [List.replicate_zero, List.nil_append, Nat.zero_add]
  | succ k ih =>
    rw [List.replicate_succ, List.cons_append, leadNl_cons_nl, ih]
    omega

theorem restNl_replicate_append (k : Nat) (w : List Char) :
    restNl (List.replicate k '\n' ++ w) = restNl w := by
  induction k with
  | zero => rw [List.replicate_zero, List.nil_append]
  | succ k ih => rw [List.replicate_succ, List.cons_append, restNl_cons_nl, ih]

theorem restNl_length_le (z : List Char) : (restNl z).length ≤ z.length :=
  (List.IsSuffix.sublist (List.dropWhile_suffix _)).length_le

theorem noQuad_collapse : ∀ z : List Char, noQuad (collapseNl z) = true := by
  have H : ∀ n : Nat, ∀ z : List Char, z.length ≤ n → noQuad (collapseNl z) = true := by
    intro n
    induction n with
    | zero =>
      intro z hz
      rw [List.eq_nil_of_length_eq_zero (Nat.le_zero.mp hz), collapse_nil]
      exact noQuad_nil
    | succ n ih =>
      intro z hz
      cases z with
      | nil =>
        rw [collapse_nil]
        exact noQuad_nil
      | cons c t =>
        rw [List.length_cons] at hz
        by_cases hc : c = '\n'
        · subst hc
          rw [collapse_cons_nl, nlRun_eq]
          have hmin1 : 1 ≤ min (1 + leadNl t) 3 := by omega
          have hsplit : List.replicate (min (1 + leadNl t) 3) '\n' =
              '\n' :: List.replicate (min (1 + leadNl t) 3 - 1) '\n' := by
            cases hmin : min (1 + leadNl t) 3 with
            | zero => rw [hmin] at hmin1; omega
            | succ m =>
              rw [List.replicate_succ]
              simp
          rcases hr : restNl t with _ | ⟨c2, t2⟩
          · rw [hsplit, List.cons_append, noQuad_cons, if_pos rfl]
            rw [leadNl_replicate_append, restNl_replicate_append]
            have hl : leadNl ([] : List Char) = 0 := rfl
            have hrr : restNl ([] : List Char) = [] := rfl
            rw [hl, hrr, noQuad_nil, Bool.and_true, Nat.add_zero]
            simp only [decide_eq_true_eq]
            omega
          · have hc2 : c2 ≠ '\n' := restNl_head t c2 t2 hr
            rw [hsplit, List.cons_append, noQuad_cons, if_pos rfl,
                leadNl_replicate_append, restNl_replicate_append,
                leadNl_cons_ne c2 _ hc2, restNl_cons_ne c2 _ hc2]
            have ht2 : t2.length ≤ n := by
              have h1 : (c2 :: t2).length ≤ t.length := by
                rw [← hr]; exact restNl_length_le t
              rw [List.length_cons] at h1
              omega
            rw [noQuad_cons, if_neg hc2, ih t2 ht2, Bool.and_true, Nat.add_zero]
            simp only [decide_eq_true_eq]
            omega
        · rw [collapse_cons_ne c t hc, noQuad_cons, if_neg hc]
          exact ih t (by omega)
  exact fun z => H z.length z le_rfl

theorem takeWhile_length_ne (p : Char → Bool) (u : List Char)
    (h : u.dropWhile p ≠ []) : (u.takeWhile p).length ≠ u.length := by
  have h3 := List.takeWhile_append_dropWhile (p := p) (l := u)
  have h5 := congrArg List.length h3
  rw [List.length_append] at h5
  intro he
  have h4 : (u.dropWhile p).length = 0 := by omega
  exact h (List.eq_nil_of_length_eq_zero h4)

theorem noQuad_append_left : ∀ u v : List Char, noQuad (u ++ v) = true → noQuad u = true := by
  have H : ∀ n : Nat, ∀ u v : List Char, u.length ≤ n → noQuad (u ++ v) = true →
      noQuad u = true := by
    intro n
    induction n with
    | zero =>
      intro u v hu _
      rw [List.eq_nil_of_length_eq_zero (Nat.le_zero.mp hu)]
      exact noQuad_nil
    | succ n ih =>
      intro u v hu hq
      cases u with
      | nil => exact noQuad_nil
      | cons c u2 =>
        rw [List.length_cons] at hu
        rw [List.cons_append, noQuad_cons] at hq
        rw [noQuad_cons]
        by_cases hc : c = '\n'
        · rw [if_pos hc] at hq ⊢
          rcases hr : u2.dropWhile (fun x => x = '\n') with _ | ⟨c2, t2⟩
          · have hall : ∀ x ∈ u2, x = '\n' := fun x hx => by
              simpa using List.dropWhile_eq_nil_iff.mp hr x hx
            have hlead : leadNl u2 = u2.length := by
              unfold leadNl
              rw [List.takeWhile_eq_self_iff.mpr (by intro x hx; simpa using hall x hx)]
            have hrest : restNl u2 = [] := hr
            have hlead2 : leadNl (u2 ++ v) = u2.length + leadNl v := by
              have : u2 = List.replicate u2.length '\n' := by
                apply List.eq_replicate_of_mem
                exact hall
              rw [this]
              rw [leadNl_replicate_append, List.length_replicate]
            rw [Bool.and_eq_true] at hq
            rw [hlead, hrest, noQuad_nil, Bool.and_true]
            have hb := of_decide_eq_true hq.1
            rw [hlead2] at hb
            simp
            omega
          · have hne : restNl u2 ≠ [] := by rw [show restNl u2 = u2.dropWhile (fun x => x = '\n') from rfl, hr]; intro h; cases h
            have hlead : leadNl (u2 ++ v) = leadNl u2 := by
              unfold leadNl
              rw [List.takeWhile_append]
              rw [if_neg (takeWhile_length_ne _ u2 hne)]
            have hrest : restNl (u2 ++ v) = restNl u2 ++ v := by
              unfold restNl
              rw [List.dropWhile_append]
              rw [if_neg (by
                intro hie
                rw [List.isEmpty_iff] at hie
                exact hne hie)]
            rw [hlead, hrest, Bool.and_eq_true] at hq
            rw [Bool.and_eq_true]
            refine ⟨hq.1, ?_⟩
            refine ih (restNl u2) v ?_ hq.2
            have := restNl_length_le u2
            omega
        · rw [if_neg hc] at hq ⊢
          exact ih u2 v (by omega) hq
  exact fun u v => H u.length u v le_rfl

theorem noQuad_single_nl : noQuad ['\n'] = true := by
  rw [noQuad_cons, if_pos rfl]
  have hl : leadNl ([] : List Char) = 0 := rfl
  have hr : restNl ([] : List Char) = [] := rfl
  rw [hl, hr, noQuad_nil, Bool.and_true]
  decide

theorem getLast?_ne_of_getLast_ne (w : List Char)
    (h : ∀ hx : w ≠ [], w.getLast hx ≠ '\n') : w.getLast? ≠ some '\n' := by
  cases w with
  | nil => intro he; cases he
  | cons a t =>
    intro he
    rw [List.getLast?_eq_getLast (a :: t) (by intro h2; cases h2)] at he
    exact h (by intro h2; cases h2) (Option.some.inj he)

theorem noQuad_snoc_nl : ∀ w : List Char, noQuad w = true →
    w.getLast? ≠ some '\n' → noQuad (w ++ ['\n']) = true := by
  have H : ∀ n : Nat, ∀ w : List Char, w.length ≤ n → noQuad w = true →
      w.getLast? ≠ some '\n' → noQuad (w ++ ['\n']) = true := by
    intro n
    induction n with
    | zero =>
      intro w hw _ _
      rw [List.eq_nil_of_length_eq_zero (Nat.le_zero.mp hw), List.nil_append]
      exact noQuad_single_nl
    | succ n ih =>
      intro w hw hq hlast
      cases w with
      | nil =>
        rw [List.nil_append]
        exact noQuad_single_nl
      | cons c w2 =>
        rw [List.length_cons] at hw
        by_cases hc : c = '\n'
        · subst hc
          have hw2 : w2 ≠ [] := by
            intro he
            subst he
            exact hlast rfl
          have hlast2 : w2.getLast? ≠ some '\n' := by
            cases w2 with
            | nil => intro he; cases he
            | cons d w3 =>
              rw [← List.getLast?_cons_cons (a := '\n') (b := d) (l := w3)]
              exact hlast
          have hrw2 : restNl w2 ≠ [] := by
            intro he
            have hall : ∀ x ∈ w2, x = '\n' := fun x hx => by
              simpa using List.dropWhile_eq_nil_iff.mp he x hx
            refine hlast2 ?_
            rw [List.getLast?_eq_getLast w2 hw2]
            rw [hall _ (List.getLast_mem hw2)]
          rw [noQuad_cons, if_pos rfl, Bool.and_eq_true] at hq
          rw [List.cons_append, noQuad_cons, if_pos rfl]
          have hlead : leadNl (w2 ++ ['\n']) = leadNl w2 := by
            unfold leadNl
            rw [List.takeWhile_append, if_neg (takeWhile_length_ne _ w2 hrw2)]
          have hrest : restNl (w2 ++ ['\n']) = restNl w2 ++ ['\n'] := by
            unfold restNl
            rw [List.dropWhile_append, if_neg (by
              intro hie
              rw [List.isEmpty_iff] at hie
              exact hrw2 hie)]
          rw [hlead, hrest, hq.1, Bool.true_and]
          refine ih (restNl w2) ?_ hq.2 ?_
          · have := restNl_length_le w2
            omega
          · have hdecomp : w2.takeWhile (fun x => x = '\n') ++ restNl w2 = w2 :=
              List.takeWhile_append_dropWhile _ _
            intro he
            refine hlast2 ?_
            rw [← hdecomp, List.getLast?_append_of_ne_nil _ hrw2]
            exact he
        · rw [List.cons_append, noQuad_cons, if_neg hc]
          rw [noQuad_cons, if_neg hc] at hq
          cases w2 with
          | nil =>
            rw [List.nil_append]
            exact noQuad_single_nl
          | cons d w3 =>
            refine ih (d :: w3) (by rw [List.length_cons] at hw ⊢; omega) hq ?_
            rw [← List.getLast?_cons_cons (a := c) (b := d) (l := w3)]
            exact hlast
  exact fun w => H w.length w le_rfl

theorem noQuad_collapse_id : ∀ y : List Char, noQuad y = true → collapseNl y = y := by
  have H : ∀ n : Nat, ∀ y : List Char, y.length ≤ n → noQuad y = true →
      collapseNl y = y := by
    intro n
    induction n with
    | zero =>
      intro y hy _
      rw [List.eq_nil_of_length_eq_zero (Nat.le_zero.mp hy)]
      rfl
    | succ n ih =>
      intro y hy hq
      cases y with
      | nil => rfl
      | cons c t =>
        rw [List.length_cons] at hy
        by_cases hc : c = '\n'
        · subst hc
          rw [collapse_cons_nl, nlRun_eq]
          rw [noQuad_cons, if_pos rfl, Bool.and_eq_true] at hq
          have hle : leadNl t ≤ 2 := by simpa using hq.1
          have hmin : min (1 + leadNl t) 3 = 1 + leadNl t := by omega
          rw [hmin]
          have h1 : 1 + leadNl t = leadNl t + 1 := by omega
          rcases hr : restNl t with _ | ⟨c2, t2⟩
          · have hdec := lead_rest_decomp t
            rw [hr, List.append_nil] at hdec
            show List.replicate (1 + leadNl t) '\n' ++ [] = '\n' :: t
            rw [List.append_nil, h1, List.replicate_succ, ← hdec]
          · have hc2 : c2 ≠ '\n' := restNl_head t c2 t2 hr
            have hq2 : noQuad (restNl t) = true := hq.2
            rw [hr, noQuad_cons, if_neg hc2] at hq2
            have ht2 : t2.length ≤ n := by
              have hx : (c2 :: t2).length ≤ t.length := by
                rw [← hr]; exact restNl_length_le t
              rw [List.length_cons] at hx
              omega
            show List.replicate (1 + leadNl t) '\n' ++ (c2 :: collapseNl t2) = '\n' :: t
            rw [ih t2 ht2 hq2]
            have hdec := lead_rest_decomp t
            rw [hr] at hdec
            rw [h1, List.replicate_succ, List.cons_append, ← hdec]
        · rw [collapse_cons_ne c t hc]
          rw [noQuad_cons, if_neg hc] at hq
          rw [ih t (by omega) hq]
  exact fun y => H y.length y le_rfl

theorem ensure_idem (z : List Char) : ensureFinalNl (ensureFinalNl z) = ensureFinalNl z := by
  show stripTrailNl (stripTrailNl z ++ ['\n']) ++ ['\n'] = stripTrailNl z ++ ['\n']
  congr 1
  rw [stripTrail_eq_rdropWhile, stripTrail_eq_rdropWhile,
      List.rdropWhile_concat_pos _ _ '\n' (by decide)]
  exact List.rdropWhile_idempotent _ _

/-! ### character membership through the pipeline -/

theorem mem_replCR (l : List Char) (c : Char) (h : c ∈ replCR l) : c ≠ '\r' := by
  unfold replCR at h
  rcases List.mem_map.mp h with ⟨x, _, hx⟩
  by_cases he : x = '\r'
  · rw [if_pos he] at hx
    rw [← hx]
    decide
  · rw [if_neg he] at hx
    rw [← hx]
    exact he

theorem mem_expandTabs : ∀ (l : List Char) (c : Char), c ∈ expandTabs l →
    c = ' ' ∨ (c ∈ l ∧ c ≠ '\t') := by
  intro l
  induction l with
  | nil => intro c h; cases h
  | cons x rest ih =>
    intro c h
    show c = ' ' ∨ (c ∈ x :: rest ∧ c ≠ '\t')
    have h2 : c ∈ (if x = '\t' then [' ', ' ', ' ', ' '] else [x]) ∨ c ∈ expandTabs rest :=
      List.mem_append.mp h
    rcases h2 with h3 | h3
    · by_cases he : x = '\t'
      · rw [if_pos he] at h3
        left
        simpa using h3
      · rw [if_neg he] at h3
        right
        rw [List.mem_singleton] at h3
        exact ⟨h3 ▸ List.mem_cons_self x rest, h3 ▸ he⟩
    · rcases ih c h3 with h4 | h4
      · exact Or.inl h4
      · exact Or.inr ⟨List.mem_cons_of_mem x h4.1, h4.2⟩

theorem mem_splitNl_mem : ∀ (z : List Char) (m : List Char), m ∈ splitNl z →
    ∀ c ∈ m, c ∈ z := by
  intro z
  induction z with
  | nil =>
    intro m hm c hc
    have hsp : splitNl ([] : List Char) = [[]] := rfl
    rw [hsp, List.mem_singleton] at hm
    subst hm
    cases hc
  | cons c0 rest ih =>
    intro m hm c hc
    by_cases h0 : c0 = '\n'
    · subst h0
      rw [splitNl_cons_nl] at hm
      rcases List.mem_cons.mp hm with h1 | h2
      · subst h1; cases hc
      · exact List.mem_cons_of_mem _ (ih m h2 c hc)
    · rcases splitNl_cons_ne c0 rest h0 with ⟨l0, ls0, hs, he⟩
      rw [he] at hm
      rcases List.mem_cons.mp hm with h1 | h2
      · subst h1
        rcases List.mem_cons.mp hc with h3 | h4
        · exact h3 ▸ List.mem_cons_self c0 rest
        · exact List.mem_cons_of_mem _ (ih l0 (hs ▸ List.mem_cons_self l0 ls0) c h4)
      · exact List.mem_cons_of_mem _ (ih m (hs ▸ List.mem_cons_of_mem l0 h2) c hc)

theorem mem_joinNl : ∀ (L : List (List Char)) (c : Char), c ∈ joinNl L →
    (∃ m ∈ L, c ∈ m) ∨ c = '\n' := by
  intro L
  induction L with
  | nil => intro c h; cases h
  | cons m L2 ih =>
    intro c h
    rw [joinNl_cons] at h
    rcases List.mem_append.mp h with h1 | h2
    · exact Or.inl ⟨m, List.mem_cons_self m L2, h1⟩
    · cases L2 with
      | nil => cases h2
      | cons a b =>
        rcases List.mem_cons.mp h2 with h3 | h4
        · exact Or.inr h3
        · rcases ih c h4 with ⟨m2, hm2, hc2⟩ | h5
          · exact Or.inl ⟨m2, List.mem_cons_of_mem m hm2, hc2⟩
          · exact Or.inr h5

theorem mem_collapse : ∀ (z : List Char) (c : Char), c ∈ collapseNl z → c ∈ z ∨ c = '\n' := by
  have H : ∀ n : Nat, ∀ z : List Char, z.length ≤ n → ∀ c, c ∈ collapseNl z →
      c ∈ z ∨ c = '\n' := by
    intro n
    induction n with
    | zero =>
      intro z hz c hc
      rw [List.eq_nil_of_length_eq_zero (Nat.le_zero.mp hz)] at hc
      cases hc
    | succ n ih =>
      intro z hz c hc
      cases z with
      | nil => cases hc
      | cons c0 t =>
        rw [List.length_cons] at hz
        by_cases h0 : c0 = '\n'
        · subst h0
          rw [collapse_cons_nl, nlRun_eq] at hc
          rcases List.mem_append.mp hc with h1 | h2
          · exact Or.inr (List.eq_of_mem_replicate h1)
          · rcases hr : restNl t with _ | ⟨c2, t2⟩
            · rw [hr] at h2; cases h2
            · rw [hr] at h2
              have hsub : ∀ x ∈ restNl t, x ∈ t :=
                fun x hx => (List.IsSuffix.sublist (List.dropWhile_suffix _)).subset hx
              rcases List.mem_cons.mp h2 with h3 | h4
              · rw [h3]
                refine Or.inl (List.mem_cons_of_mem _ (hsub c2 ?_))
                rw [hr]
                exact List.mem_cons_self c2 t2
              · have ht2 : t2.length ≤ n := by
                  have hx : (c2 :: t2).length ≤ t.length := by
                    rw [← hr]; exact restNl_length_le t
                  rw [List.length_cons] at hx
                  omega
                rcases ih t2 ht2 c h4 with h5 | h5
                · refine Or.inl (List.mem_cons_of_mem _ (hsub c ?_))
                  rw [hr]
                  exact List.mem_cons_of_mem c2 h5
                · exact Or.inr h5
        · rw [collapse_cons_ne c0 t h0] at hc
          rcases List.mem_cons.mp hc with h1 | h2
          · exact Or.inl (h1 ▸ List.mem_cons_self c0 t)
          · rcases ih t (by omega) c h2 with h3 | h3
            · exact Or.inl (List.mem_cons_of_mem c0 h3)
            · exact Or.inr h3
  exact fun z => H z.length z le_rfl

theorem mem_ensure (z : List Char) (c : Char) (h : c ∈ ensureFinalNl z) :
    c ∈ z ∨ c = '\n' := by
  unfold ensureFinalNl at h
  rcases List.mem_append.mp h with h1 | h2
  · unfold stripTrailNl at h1
    rw [List.mem_reverse] at h1
    have h3 := (List.IsSuffix.sublist (List.dropWhile_suffix _)).subset h1
    rw [List.mem_reverse] at h3
    exact Or.inl h3
  · rw [List.mem_singleton] at h2
    exact Or.inr h2

theorem mem_pyNorm (l : List Char) (c : Char) (h : c ∈ pyNorm l) :
    c ∈ expandTabs (replCR (replCRLF l)) ∨ c = '\n' := by
  unfold pyNorm at h
  rcases mem_ensure _ c h with h1 | h1
  · rcases mem_collapse _ c h1 with h2 | h2
    · rcases mem_joinNl _ c h2 with ⟨m, hm, hc⟩ | h3
      · rcases List.mem_map.mp hm with ⟨m0, hm0, he⟩
        subst he
        exact Or.inl (mem_splitNl_mem _ m0 hm0 c (mem_rstrip m0 c hc))
      · exact Or.inr h3
    · exact Or.inr h2
  · exact Or.inr h1

theorem pyNorm_invariants (l : List Char) :
    '\r' ∉ pyNorm l ∧ '\t' ∉ pyNorm l ∧ badPair (pyNorm l) = false ∧
      noQuad (pyNorm l) = true := by
  have hz3 : ∀ c ∈ expandTabs (replCR (replCRLF l)), c ≠ '\r' ∧ c ≠ '\t' := by
    intro c hc
    rcases mem_expandTabs _ c hc with h1 | h1
    · subst h1
      exact ⟨by decide, by decide⟩
    · exact ⟨mem_replCR _ c h1.1, h1.2⟩
  refine ⟨?_, ?_, ?_, ?_⟩
  · intro hc
    rcases mem_pyNorm l '\r' hc with h1 | h1
    · exact (hz3 _ h1).1 rfl
    · cases h1
  · intro hc
    rcases mem_pyNorm l '\t' hc with h1 | h1
    · exact (hz3 _ h1).2 rfl
    · cases h1
  · show badPair (ensureFinalNl (collapseNl
      (joinNl ((splitNl (expandTabs (replCR (replCRLF l)))).map rstripLine)))) = false
    refine badPair_ensure _ (badPair_collapse _ ?_)
    refine lines_badPair _ ?_ ?_
    · intro he
      exact splitNl_ne_nil _ (List.map_eq_nil_iff.mp he)
    · intro m hm
      rcases List.mem_map.mp hm with ⟨m0, hm0, hme⟩
      subst hme
      constructor
      · intro hmem
        exact splitNl_no_nl _ m0 hm0 (mem_rstrip m0 '\n' hmem)
      · exact rstrip_last m0
  · show noQuad (ensureFinalNl (collapseNl
      (joinNl ((splitNl (expandTabs (replCR (replCRLF l)))).map rstripLine)))) = true
    have hnq := noQuad_collapse
      (joinNl ((splitNl (expandTabs (replCR (replCRLF l)))).map rstripLine))
    rcases stripTrail_decomp (collapseNl
      (joinNl ((splitNl (expandTabs (replCR (replCRLF l)))).map rstripLine))) with ⟨k, hk⟩
    show noQuad (stripTrailNl (collapseNl
      (joinNl ((splitNl (expandTabs (replCR (replCRLF l)))).map rstripLine))) ++ ['\n']) = true
    refine noQuad_snoc_nl _ ?_ ?_
    · refine noQuad_append_left _ (List.replicate k '\n') ?_
      rw [← hk]
      exact hnq
    · exact getLast?_ne_of_getLast_ne _ (fun hx => stripTrail_last _ hx)

theorem pyNorm_idem (l : List Char) : pyNorm (pyNorm l) = pyNorm l := by
  obtain ⟨h1, h2, h3, h4⟩ := pyNorm_invariants l
  show ensureFinalNl (collapseNl
    (joinNl ((splitNl (expandTabs (replCR (replCRLF (pyNorm l))))).map rstripLine))) = pyNorm l
  rw [replCRLF_id _ h1, replCR_id _ h1, expandTabs_id _ h2, st4_id _ h3,
      noQuad_collapse_id _ h4]
  show ensureFinalNl (ensureFinalNl (collapseNl
    (joinNl ((splitNl (expandTabs (replCR (replCRLF l)))).map rstripLine)))) = pyNorm l
  exact ensure_idem _

/-- C6: the Python normalization pipeline (line endings, tab expansion,
per-line trailing-whitespace strip, blank-line-run collapse, single final
newline) is idempotent: formatting an already formatted text changes
nothing. -/
theorem C6_python_idempotent (x : String) :
    formatPython (formatPython x) = formatPython x := by
  show String.mk (pyNorm (String.mk (pyNorm x.toList)).toList) = String.mk (pyNorm x.toList)
  have hdata : (String.mk (pyNorm x.toList)).toList = pyNorm x.toList := rfl
  rw [hdata, pyNorm_idem]

/-! ### JSON roundtrip: decimal digits -/

theorem natDigsF_fuel : ∀ (n f1 f2 : Nat), n < f1 → n < f2 →
    natDigsF f1 n = natDigsF f2 n := by
  have H : ∀ (k n f1 f2 : Nat), n ≤ k → n < f1 → n < f2 →
      natDigsF f1 n = natDigsF f2 n := by
    intro k
    induction k with
    | zero =>
      intro n f1 f2 hk h1 h2
      have hn : n = 0 := Nat.le_zero.mp hk
      subst hn
      cases f1 with
      | zero => omega
      | succ g1 =>
        cases f2 with
        | zero => omega
        | succ g2 =>
          show (if 0 < 10 then _ else _) = (if 0 < 10 then _ else _)
          rw [if_pos (by omega), if_pos (by omega)]
    | succ k ih =>
      intro n f1 f2 hk h1 h2
      cases f1 with
      | zero => omega
      | succ g1 =>
        cases f2 with
        | zero => omega
        | succ g2 =>
          show (if n < 10 then [digitChar n]
                else natDigsF g1 (n / 10) ++ [digitChar (n % 10)]) =
               (if n < 10 then [digitChar n]
                else natDigsF g2 (n / 10) ++ [digitChar (n % 10)])
          by_cases hn : n < 10
          · rw [if_pos hn, if_pos hn]
          · rw [if_neg hn, if_neg hn]
            have hdiv : n / 10 ≤ k := by omega
            have hd1 : n / 10 < g1 := by omega
            have hd2 : n / 10 < g2 := by omega
            rw [ih (n / 10) g1 g2 hdiv hd1 hd2]
  exact fun n f1 f2 => H n n f1 f2 le_rfl

theorem natDigs_eq (n : Nat) :
    natDigs n = if n < 10 then [digitChar n]
                else natDigs (n / 10) ++ [digitChar (n % 10)] := by
  show natDigsF (n + 1) n = _
  show (if n < 10 then [digitChar n] else natDigsF n (n / 10) ++ [digitChar (n % 10)]) = _
  by_cases hn : n < 10
  · rw [if_pos hn, if_pos hn]
  · rw [if_neg hn, if_neg hn]
    rw [natDigsF_fuel (n / 10) n (n / 10 + 1) (by omega) (by omega)]
    rfl

theorem natDigs_ne_nil (n : Nat) : natDigs n ≠ [] := by
  rw [natDigs_eq]
  by_cases hn : n < 10
  · rw [if_pos hn]
    intro h
    cases h
  · rw [if_neg hn]
    intro h
    rcases List.append_eq_nil.mp h with ⟨_, h2⟩
    cases h2

theorem natDigs_digits : ∀ n : Nat, ∀ c ∈ natDigs n, c.isDigit = true := by
  have H : ∀ (k n : Nat), n ≤ k → ∀ c ∈ natDigs n, c.isDigit = true := by
    intro k
    induction k with
    | zero =>
      intro n hk c hc
      have hn : n = 0 := Nat.le_zero.mp hk
      subst hn
      rw [natDigs_eq, if_pos (by omega)] at hc
      rw [List.mem_singleton] at hc
      subst hc
      decide
    | succ k ih =>
      intro n hk c hc
      rw [natDigs_eq] at hc
      by_cases hn : n < 10
      · rw [if_pos hn] at hc
        rw [List.mem_singleton] at hc
        subst hc
        have : ∀ m : Nat, m < 10 → (digitChar m).isDigit = true := by decide
        exact this n hn
      · rw [if_neg hn] at hc
        rcases List.mem_append.mp hc with h1 | h1
        · exact ih (n / 10) (by omega) c h1
        · rw [List.mem_singleton] at h1
          subst h1
          have : ∀ m : Nat, m < 10 → (digitChar m).isDigit = true := by decide
          exact this (n % 10) (by omega)
  exact fun n => H n n le_rfl

theorem digsVal_append_digit (l : List Char) (c : Char) :
    digsVal (l ++ [c]) = digsVal l * 10 + (c.toNat - 48) := by
  unfold digsVal
  rw [List.foldl_append]
  rfl

theorem digsVal_natDigs : ∀ n : Nat, digsVal (natDigs n) = n := by
  have H : ∀ (k n : Nat), n ≤ k → digsVal (natDigs n) = n := by
    intro k
    induction k with
    | zero =>
      intro n hk
      have hn : n = 0 := Nat.le_zero.mp hk
      subst hn
      rfl
    | succ k ih =>
      intro n hk
      rw [natDigs_eq]
      by_cases hn : n < 10
      · rw [if_pos hn]
        show digsVal [digitChar n] = n
        unfold digsVal digitChar
        show 0 * 10 + ((Char.ofNat (48 + n)).toNat - 48) = n
        have hv : (Char.ofNat (48 + n)).toNat = 48 + n := by
          have : ∀ m : Nat, m < 10 → (Char.ofNat (48 + m)).toNat = 48 + m := by decide
          exact this n hn
        rw [hv]
        omega
      · rw [if_neg hn, digsVal_append_digit, ih (n / 10) (by omega)]
        unfold digitChar
        have hv : (Char.ofNat (48 + n % 10)).toNat = 48 + n % 10 := by
          have : ∀ m : Nat, m < 10 → (Char.ofNat (48 + m)).toNat = 48 + m := by decide
          exact this (n % 10) (by omega)
        rw [hv]
        omega
  exact fun n => H n n le_rfl

theorem natDigs_single (n : Nat) (hn : n < 10) : natDigs n = [digitChar n] := by
  rw [natDigs_eq, if_pos hn]

theorem natDigs_head_ne_zero : ∀ n : Nat, 1 ≤ n → ∀ t, natDigs n ≠ '0' :: t := by
  have H : ∀ (k n : Nat), n ≤ k → 1 ≤ n → ∀ t, natDigs n ≠ '0' :: t := by
    intro k
    induction k with
    | zero => intro n hk h1 t; omega
    | succ k ih =>
      intro n hk h1 t he
      rw [natDigs_eq] at he
      by_cases hn : n < 10
      · rw [if_pos hn] at he
        have hc : digitChar n = '0' := (List.cons.inj he).1
        have : ∀ m : Nat, 1 ≤ m → m < 10 → digitChar m ≠ '0' := by decide
        exact this n h1 hn hc
      · rw [if_neg hn] at he
        rcases hd : natDigs (n / 10) with _ | ⟨c0, t0⟩
        · exact natDigs_ne_nil _ hd
        · rw [hd, List.cons_append] at he
          have hc0 : c0 = '0' := (List.cons.inj he).1
          exact ih (n / 10) (by omega) (by omega) t0 (by rw [hd, hc0])
  exact fun n h1 => H n n le_rfl h1
/-! ### JSON roundtrip: strings -/

theorem hexVal_hexDigitChar (k : Nat) (hk : k < 16) : hexVal (hexDigitChar k) = some k := by
  interval_cases k <;> decide

theorem escList_length (cs : List Char) : cs.length ≤ (escList cs).length := by
  induction cs with
  | nil => simp [escList]
  | cons c tl ih =>
    have h1 : 1 ≤ (escChar c).length := by
      unfold escChar
      split_ifs <;> simp
    have h2 : escList (c :: tl) = escChar c ++ escList tl := rfl
    rw [h2, List.length_append, List.length_cons]
    omega

theorem hex4_eval (a b : Nat) (ha : a < 16) (hb : b < 16) (r : List Char) :
    hex4 ('0' :: '0' :: hexDigitChar a :: hexDigitChar b :: r) = some (a * 16 + b) := by
  show (match hexVal '0', hexVal '0', hexVal (hexDigitChar a), hexVal (hexDigitChar b) with
        | some x, some y, some z, some w => some (x * 4096 + y * 256 + z * 16 + w)
        | _, _, _, _ => none) = some (a * 16 + b)
  rw [hexVal_hexDigitChar a ha, hexVal_hexDigitChar b hb]
  show some (0 * 4096 + 0 * 256 + a * 16 + b) = some (a * 16 + b)
  norm_num

theorem pStrBodyF_escList :
    ∀ (cs : List Char) (fuel : Nat) (r : List Char), cs.length < fuel →
      pStrBodyF fuel (escList cs ++ '"' :: r) = some (cs, r) := by
  intro cs
  induction cs with
  | nil =>
    intro fuel r hf
    cases fuel with
    | zero => omega
    | succ f =>
      show pStrBodyF (f + 1) ('"' :: r) = some ([], r)
      rw [pStrBodyF]
      simp
  | cons c tl ih =>
    intro fuel r hf
    cases fuel with
    | zero => omega
    | succ f =>
      have htl : tl.length < f := by
        rw [List.length_cons] at hf
        omega
      show pStrBodyF (f + 1) (escChar c ++ escList tl ++ '"' :: r) = some (c :: tl, r)
      unfold escChar
      by_cases h1 : c = '"'
      · rw [if_pos h1, h1]
        show pStrBodyF (f + 1) ('\\' :: '"' :: (escList tl ++ '"' :: r)) = _
        rw [pStrBodyF]
        simp only [Char.reduceEq, if_false, if_true, ite_false, ite_true,
          List.head?_cons, List.tail_cons, Option.some_bind]
        rw [ih f r htl]
        rfl
      rw [if_neg h1]
      by_cases h2 : c = '\\'
      · rw [if_pos h2, h2]
        show pStrBodyF (f + 1) ('\\' :: '\\' :: (escList tl ++ '"' :: r)) = _
        rw [pStrBodyF]
        simp only [Char.reduceEq, if_false, if_true, ite_false, ite_true,
          List.head?_cons, List.tail_cons, Option.some_bind]
        rw [ih f r htl]
        rfl
      rw [if_neg h2]
      by_cases h3 : c = '\x08'
      · rw [if_pos h3, h3]
        show pStrBodyF (f + 1) ('\\' :: 'b' :: (escList tl ++ '"' :: r)) = _
        rw [pStrBodyF]
        simp only [Char.reduceEq, if_false, if_true, ite_false, ite_true,
          List.head?_cons, List.tail_cons, Option.some_bind]
        rw [ih f r htl]
        rfl
      rw [if_neg h3]
      by_cases h4 : c = '\t'
      · rw [if_pos h4, h4]
        show pStrBodyF (f + 1) ('\\' :: 't' :: (escList tl ++ '"' :: r)) = _
        rw [pStrBodyF]
        simp only [Char.reduceEq, if_false, if_true, ite_false, ite_true,
          List.head?_cons, List.tail_cons, Option.some_bind]
        rw [ih f r htl]
        rfl
      rw [if_neg h4]
      by_cases h5 : c = '\n'
      · rw [if_pos h5, h5]
        show pStrBodyF (f + 1) ('\\' :: 'n' :: (escList tl ++ '"' :: r)) = _
        rw [pStrBodyF]
        simp only [Char.reduceEq, if_false, if_true, ite_false, ite_true,
          List.head?_cons, List.tail_cons, Option.some_bind]
        rw [ih f r htl]
        rfl
      rw [if_neg h5]
      by_cases h6 : c = '\x0c'
      · rw [if_pos h6, h6]
        show pStrBodyF (f + 1) ('\\' :: 'f' :: (escList tl ++ '"' :: r)) = _
        rw [pStrBodyF]
        simp only [Char.reduceEq, if_false, if_true, ite_false, ite_true,
          List.head?_cons, List.tail_cons, Option.some_bind]
        rw [ih f r htl]
        rfl
      rw [if_neg h6]
      by_cases h7 : c = '\r'
      · rw [if_pos h7, h7]
        show pStrBodyF (f + 1) ('\\' :: 'r' :: (escList tl ++ '"' :: r)) = _
        rw [pStrBodyF]
        simp only [Char.reduceEq, if_false, if_true, ite_false, ite_true,
          List.head?_cons, List.tail_cons, Option.some_bind]
        rw [ih f r htl]
        rfl
      rw [if_neg h7]
      by_cases h8 : c.toNat < 32
      · rw [if_pos h8]
        show pStrBodyF (f + 1)
          ('\\' :: 'u' :: ('0' :: '0' :: hexDigitChar (c.toNat / 16) ::
            hexDigitChar (c.toNat % 16) :: (escList tl ++ '"' :: r))) = _
        rw [pStrBodyF]
        simp only [Char.reduceEq, if_false, if_true, ite_false, ite_true,
          List.head?_cons, List.tail_cons, Option.some_bind]
        rw [hex4_eval (c.toNat / 16) (c.toNat % 16) (by omega) (by omega)]
        rw [Option.some_bind]
        rw [if_pos (Or.inl (by omega : c.toNat / 16 * 16 + c.toNat % 16 < 55296))]
        simp only [List.drop_succ_cons, List.drop_zero]
        rw [ih f r htl]
        have hc : Char.ofNat (c.toNat / 16 * 16 + c.toNat % 16) = c := by
          have hcd : c.toNat / 16 * 16 + c.toNat % 16 = c.toNat := by omega
          rw [hcd, Char.ofNat_toNat]
        show some (Char.ofNat (c.toNat / 16 * 16 + c.toNat % 16) :: tl, r) = _
        rw [hc]
      · rw [if_neg h8]
        show pStrBodyF (f + 1) (c :: (escList tl ++ '"' :: r)) = _
        rw [pStrBodyF]
        rw [if_neg h1, if_neg h2, if_neg h8]
        rw [ih f r htl]
        rfl

theorem pStrBody_escList (cs : List Char) (r : List Char) :
    pStrBody (escList cs ++ '"' :: r) = some (cs, r) := by
  unfold pStrBody
  apply pStrBodyF_escList
  have := escList_length cs
  rw [List.length_append]
  omega

/-! ### JSON roundtrip: token glue -/


theorem digit_ne (c x : Char) (h : c.isDigit = true) (hx : x.isDigit = false) : c ≠ x := by
  intro he
  rw [he] at h
  rw [h] at hx
  cases hx

theorem digit_not_ws (c : Char) (h : c.isDigit = true) : jsonTokWS c = false := by
  cases hw : jsonTokWS c
  · rfl
  · exfalso
    unfold jsonTokWS at hw
    simp only [Bool.or_eq_true, decide_eq_true_eq] at hw
    rcases hw with ((h1 | h1) | h1) | h1 <;> (rw [h1] at h; exact absurd h (by decide))

theorem skipWs_ws_pre (pre l : List Char) (h : ∀ c ∈ pre, jsonTokWS c = true) :
    skipWs (pre ++ l) = skipWs l := by
  unfold skipWs
  rw [List.dropWhile_append_of_pos h]

theorem skipWs_cons_neg (c : Char) (l : List Char) (h : jsonTokWS c = false) :
    skipWs (c :: l) = c :: l := by
  unfold skipWs
  rw [List.dropWhile_cons, h]
  simp

theorem sp_ws (d : Nat) : ∀ c ∈ sp d, jsonTokWS c = true := by
  intro c hc
  rw [List.eq_of_mem_replicate hc]
  decide

/-- The first character of a serialized JSON value is never token
whitespace and never a closing bracket, brace, comma or colon. -/
theorem jser_head (d : Nat) (v : Json) :
    ∃ c t, jser d v = c :: t ∧ jsonTokWS c = false ∧ c ≠ ']' ∧ c ≠ '\x7d' := by
  cases v with
  | null => exact ⟨'n', _, rfl, by decide, by decide, by decide⟩
  | bool b =>
    cases b with
    | false => exact ⟨'f', _, rfl, by decide, by decide, by decide⟩
    | true => exact ⟨'t', _, rfl, by decide, by decide, by decide⟩
  | num n =>
    show ∃ c t, intDigs n = c :: t ∧ _
    unfold intDigs
    by_cases hn : n < 0
    · rw [if_pos hn]
      exact ⟨'-', _, rfl, by decide, by decide, by decide⟩
    · rw [if_neg hn]
      rcases hd : natDigs n.natAbs with _ | ⟨c, t⟩
      · exact absurd hd (natDigs_ne_nil _)
      · have hdig : c.isDigit = true := natDigs_digits _ c (hd ▸ List.mem_cons_self c t)
        exact ⟨c, t, rfl, digit_not_ws c hdig, digit_ne c ']' hdig (by decide),
          digit_ne c '\x7d' hdig (by decide)⟩
  | str s => exact ⟨'"', _, rfl, by decide, by decide, by decide⟩
  | arr xs =>
    cases xs with
    | nil => exact ⟨'[', _, rfl, by decide, by decide, by decide⟩
    | cons x tl => exact ⟨'[', _, rfl, by decide, by decide, by decide⟩
  | obj ms =>
    cases ms with
    | nil => exact ⟨'\x7b', _, rfl, by decide, by decide, by decide⟩
    | cons k v tl => exact ⟨'\x7b', _, rfl, by decide, by decide, by decide⟩

theorem takeWhile_digit_nil (rest : List Char) (h : noDigitHead rest) :
    rest.takeWhile Char.isDigit = [] := by
  cases rest with
  | nil => rfl
  | cons c r =>
    rw [List.takeWhile_cons, h c rfl]
    rfl

theorem dropWhile_digit_self (rest : List Char) (h : noDigitHead rest) :
    rest.dropWhile Char.isDigit = rest := by
  cases rest with
  | nil => rfl
  | cons c r =>
    rw [List.dropWhile_cons, h c rfl]
    rfl

theorem pNatNum_natDigs (m : Nat) (rest : List Char) (hrest : noDigitHead rest) :
    pNatNum (natDigs m ++ rest) = some (m, rest) := by
  unfold pNatNum
  have hall : ∀ c ∈ natDigs m, Char.isDigit c = true := natDigs_digits m
  rw [List.takeWhile_append_of_pos hall, List.dropWhile_append_of_pos hall,
    takeWhile_digit_nil rest hrest, dropWhile_digit_self rest hrest, List.append_nil]
  rw [if_neg (natDigs_ne_nil m)]
  have hno0 : ¬(2 ≤ (natDigs m).length ∧ (natDigs m).head? = some '0') := by
    rintro ⟨hlen, hhd⟩
    by_cases hm : m = 0
    · rw [hm] at hlen
      have : natDigs 0 = ['0'] := by decide
      rw [this] at hlen
      simp at hlen
    · rcases hd : natDigs m with _ | ⟨c, t⟩
      · exact absurd hd (natDigs_ne_nil _)
      · rw [hd] at hhd
        have hc : c = '0' := by
          simp [List.head?] at hhd
          exact hhd
        rw [hc] at hd
        exact natDigs_head_ne_zero m (by omega) t hd
  rw [if_neg hno0, digsVal_natDigs]

theorem pNum_intDigs (n : Int) (rest : List Char) (hrest : noDigitHead rest) :
    pNum (intDigs n ++ rest) = some (Json.num n, rest) := by
  unfold intDigs
  by_cases hn : n < 0
  · rw [if_pos hn]
    show pNum ('-' :: (natDigs n.natAbs ++ rest)) = _
    rw [pNum]
    rw [if_pos rfl]
    rw [pNatNum_natDigs n.natAbs rest hrest]
    have : -((n.natAbs : Nat) : Int) = n := by omega
    show some (Json.num (-((n.natAbs : Nat) : Int)), rest) = _
    rw [this]
  · rw [if_neg hn]
    rcases hd : natDigs n.natAbs with _ | ⟨c, t⟩
    · exact absurd hd (natDigs_ne_nil _)
    · have hdig : c.isDigit = true := natDigs_digits _ c (hd ▸ List.mem_cons_self c t)
      rw [List.cons_append, pNum]
      rw [if_neg (digit_ne c '-' hdig (by decide))]
      rw [← List.cons_append, ← hd, pNatNum_natDigs n.natAbs rest hrest]
      have : ((n.natAbs : Nat) : Int) = n := by omega
      show some (Json.num ((n.natAbs : Nat) : Int), rest) = _
      rw [this]

theorem pVal_intDigs (f : Nat) (n : Int) (rest : List Char) (hrest : noDigitHead rest) :
    pVal (f + 1) (intDigs n ++ rest) = some (Json.num n, rest) := by
  unfold intDigs
  by_cases hn : n < 0
  · rw [if_pos hn]
    show (pNatNum (natDigs n.natAbs ++ rest)).map (fun p => (Json.num (-(p.1 : Int)), p.2)) = _
    rw [pNatNum_natDigs _ _ hrest]
    show some (Json.num (-((n.natAbs : Nat) : Int)), rest) = _
    have : -((n.natAbs : Nat) : Int) = n := by omega
    rw [this]
  · rw [if_neg hn]
    rcases hd : natDigs n.natAbs with _ | ⟨c, t⟩
    · exact absurd hd (natDigs_ne_nil _)
    · have hdig : c.isDigit = true := natDigs_digits _ c (hd ▸ List.mem_cons_self c t)
      simp only [pVal]
      rw [List.cons_append, skipWs_cons_neg c _ (digit_not_ws c hdig)]
      simp only [digit_ne c 'n' hdig (by decide), digit_ne c 't' hdig (by decide),
        digit_ne c 'f' hdig (by decide), digit_ne c '"' hdig (by decide),
        digit_ne c '[' hdig (by decide), digit_ne c '\x7b' hdig (by decide),
        ite_false, if_false]
      simp only [pNum]
      simp only [digit_ne c '-' hdig (by decide), ite_false, if_false]
      rw [← List.cons_append, ← hd, pNatNum_natDigs _ _ hrest]
      show some (Json.num ((n.natAbs : Nat) : Int), rest) = _
      have : ((n.natAbs : Nat) : Int) = n := by omega
      rw [this]

/-! ### JSON roundtrip: whitespace and structure helpers -/

theorem json_mutual_ind (P : Json → Prop) (Q : JsonList → Prop) (R : JsonMems → Prop)
    (hnull : P .null) (hbool : ∀ b, P (.bool b)) (hnum : ∀ n, P (.num n))
    (hstr : ∀ s, P (.str s))
    (harr : ∀ xs, Q xs → P (.arr xs)) (hobj : ∀ ms, R ms → P (.obj ms))
    (hnil : Q .nil) (hcons : ∀ x tl, P x → Q tl → Q (.cons x tl))
    (hmnil : R .nil) (hmcons : ∀ k v tl, P v → R tl → R (.cons k v tl)) :
    (∀ j, P j) ∧ (∀ l, Q l) ∧ (∀ m, R m) := by
  refine ⟨fun j => ?_, fun l => ?_, fun m => ?_⟩
  · exact @Json.rec P Q R hnull hbool hnum hstr harr hobj hnil hcons hmnil hmcons j
  · exact @JsonList.rec P Q R hnull hbool hnum hstr harr hobj hnil hcons hmnil hmcons l
  · exact @JsonMems.rec P Q R hnull hbool hnum hstr harr hobj hnil hcons hmnil hmcons m

theorem noDigitHead_cons (c : Char) (l : List Char) (h : c.isDigit = false) :
    noDigitHead (c :: l) := by
  intro c2 hc2
  rw [List.head?_cons] at hc2
  have : c = c2 := Option.some.inj hc2
  rw [← this]
  exact h

theorem pVal_ws (fuel : Nat) (pre l : List Char) (h : ∀ c ∈ pre, jsonTokWS c = true) :
    pVal fuel (pre ++ l) = pVal fuel l := by
  cases fuel with
  | zero => rfl
  | succ f =>
    simp only [pVal]
    rw [skipWs_ws_pre pre l h]

theorem pItems_ws (fuel : Nat) (pre l : List Char) (h : ∀ c ∈ pre, jsonTokWS c = true) :
    pItems fuel (pre ++ l) = pItems fuel l := by
  cases fuel with
  | zero => rfl
  | succ f =>
    simp only [pItems]
    rw [pVal_ws f pre l h]

theorem pMems_ws (fuel : Nat) (pre l : List Char) (h : ∀ c ∈ pre, jsonTokWS c = true) :
    pMems fuel (pre ++ l) = pMems fuel l := by
  cases fuel with
  | zero => rfl
  | succ f =>
    simp only [pMems]
    rw [skipWs_ws_pre pre l h]

theorem pItems_skipWs (fuel : Nat) (r : List Char) :
    pItems fuel (skipWs r) = pItems fuel r := by
  have h1 : r.takeWhile jsonTokWS ++ r.dropWhile jsonTokWS = r :=
    List.takeWhile_append_dropWhile jsonTokWS r
  calc pItems fuel (skipWs r) = pItems fuel (r.dropWhile jsonTokWS) := rfl
    _ = pItems fuel (r.takeWhile jsonTokWS ++ r.dropWhile jsonTokWS) :=
        (pItems_ws fuel _ _ (fun c hc => by simpa using List.mem_takeWhile_imp hc)).symm
    _ = pItems fuel r := by rw [h1]

theorem pMems_skipWs (fuel : Nat) (r : List Char) :
    pMems fuel (skipWs r) = pMems fuel r := by
  have h1 : r.takeWhile jsonTokWS ++ r.dropWhile jsonTokWS = r :=
    List.takeWhile_append_dropWhile jsonTokWS r
  calc pMems fuel (skipWs r) = pMems fuel (r.dropWhile jsonTokWS) := rfl
    _ = pMems fuel (r.takeWhile jsonTokWS ++ r.dropWhile jsonTokWS) :=
        (pMems_ws fuel _ _ (fun c hc => by simpa using List.mem_takeWhile_imp hc)).symm
    _ = pMems fuel r := by rw [h1]

theorem jserItems_shape (d : Nat) (x : Json) (tl : JsonList) :
    ∃ T, jserItems d (JsonList.cons x tl) = sp d ++ (jser d x ++ T) ∧
      (∀ z, noDigitHead (T ++ '\n' :: z)) ∧
      (T = [] ∧ tl = JsonList.nil ∨
        ∃ y tl2, tl = JsonList.cons y tl2 ∧ T = ',' :: '\n' :: jserItems d tl) := by
  cases tl with
  | nil =>
    refine ⟨[], by simp [jserItems], ?_, Or.inl ⟨rfl, rfl⟩⟩
    intro z
    exact noDigitHead_cons '\n' _ (by decide)
  | cons y tl2 =>
    refine ⟨',' :: '\n' :: jserItems d (JsonList.cons y tl2), by simp [jserItems], ?_,
      Or.inr ⟨y, tl2, rfl, rfl⟩⟩
    intro z
    exact noDigitHead_cons ',' _ (by decide)

theorem jserMems_shape (d : Nat) (k : String) (v : Json) (tl : JsonMems) :
    ∃ T, (∀ z, jserMems d (JsonMems.cons k v tl) ++ z
        = sp d ++ ('"' :: (escList k.toList ++ '"' :: ':' :: ' ' ::
            (jser d v ++ (T ++ z))))) ∧
      (∀ z, noDigitHead (T ++ '\n' :: z)) ∧
      (T = [] ∧ tl = JsonMems.nil ∨
        ∃ k2 v2 tl2, tl = JsonMems.cons k2 v2 tl2 ∧ T = ',' :: '\n' :: jserMems d tl) := by
  cases tl with
  | nil =>
    refine ⟨[], ?_, ?_, Or.inl ⟨rfl, rfl⟩⟩
    · intro z
      have h0 : jserMems d (JsonMems.cons k v JsonMems.nil)
          = (sp d ++ (escString k ++ ':' :: ' ' :: jser d v)) ++ [] := rfl
      rw [h0]
      unfold escString
      simp [List.append_assoc]
    · intro z
      exact noDigitHead_cons '\n' _ (by decide)
  | cons k2 v2 tl2 =>
    refine ⟨',' :: '\n' :: jserMems d (JsonMems.cons k2 v2 tl2), ?_, ?_,
      Or.inr ⟨k2, v2, tl2, rfl, rfl⟩⟩
    · intro z
      have h0 : jserMems d (JsonMems.cons k v (JsonMems.cons k2 v2 tl2))
          = (sp d ++ (escString k ++ ':' :: ' ' :: jser d v))
            ++ (',' :: '\n' :: jserMems d (JsonMems.cons k2 v2 tl2)) := rfl
      rw [h0]
      unfold escString
      simp [List.append_assoc]
    · intro z
      exact noDigitHead_cons ',' _ (by decide)

theorem nl_sp_ws (d : Nat) : ∀ c ∈ '\n' :: sp d, jsonTokWS c = true := by
  intro c hc
  rcases List.mem_cons.mp hc with h | h
  · rw [h]
    decide
  · exact sp_ws d c h

theorem skipWs_ws_head (pre l : List Char) (c0 : Char) (t0 : List Char)
    (hpre : ∀ c ∈ pre, jsonTokWS c = true) (hl : l = c0 :: t0)
    (hc0 : jsonTokWS c0 = false) :
    skipWs (pre ++ l) = l := by
  rw [skipWs_ws_pre pre l hpre, hl]
  exact skipWs_cons_neg c0 t0 hc0

theorem pVal_escString (f : Nat) (s : String) (rest : List Char) :
    pVal (f + 1) (escString s ++ rest) = some (Json.str s, rest) := by
  have hshape : escString s ++ rest = '"' :: (escList s.toList ++ '"' :: rest) := by
    unfold escString
    simp
  rw [hshape]
  show (pStrBody (escList s.toList ++ '"' :: rest)).map
    (fun p => (Json.str (String.mk p.1), p.2)) = _
  rw [pStrBody_escList]
  have hs : String.mk s.toList = s := by
    cases s
    rfl
  show some (Json.str (String.mk s.toList), rest) = _
  rw [hs]

theorem jser_pVal_roundtrip :
    (∀ v : Json, ∀ d fuel rest, jweight v ≤ fuel → noDigitHead rest →
        pVal fuel (jser d v ++ rest) = some (v, rest)) ∧
    (∀ l : JsonList, ∀ d d2 fuel rest, l ≠ JsonList.nil → jweightList l ≤ fuel →
        noDigitHead rest →
        pItems fuel (jserItems d l ++ '\n' :: (sp d2 ++ ']' :: rest)) = some (l, rest)) ∧
    (∀ m : JsonMems, ∀ d d2 fuel rest, m ≠ JsonMems.nil → jweightMems m ≤ fuel →
        noDigitHead rest →
        pMems fuel (jserMems d m ++ '\n' :: (sp d2 ++ '\x7d' :: rest)) = some (m, rest)) := by
  refine json_mutual_ind _ _ _ ?hnull ?hbool ?hnum ?hstr ?harr ?hobj ?hnil ?hcons
    ?hmnil ?hmcons
  case hnull =>
    intro d fuel rest hw hrest
    cases fuel with
    | zero => simp [jweight] at hw
    | succ f => rfl
  case hbool =>
    intro b d fuel rest hw hrest
    cases fuel with
    | zero => simp [jweight] at hw
    | succ f =>
      cases b with
      | false => rfl
      | true => rfl
  case hnum =>
    intro n d fuel rest hw hrest
    cases fuel with
    | zero => simp [jweight] at hw
    | succ f => exact pVal_intDigs f n rest hrest
  case hstr =>
    intro s d fuel rest hw hrest
    cases fuel with
    | zero => simp [jweight] at hw
    | succ f => exact pVal_escString f s rest
  case hnil =>
    intro d d2 fuel rest hne hw hrest
    exact absurd rfl hne
  case harr =>
    intro xs hq d fuel rest hw hrest
    cases xs with
    | nil =>
      cases fuel with
      | zero => simp [jweight] at hw
      | succ f => rfl
    | cons x tl =>
      cases fuel with
      | zero =>
        rw [show jweight (Json.arr (JsonList.cons x tl))
          = 1 + jweightList (JsonList.cons x tl) from rfl] at hw
        omega
      | succ f =>
        have hwl : jweightList (JsonList.cons x tl) ≤ f := by
          rw [show jweight (Json.arr (JsonList.cons x tl))
            = 1 + jweightList (JsonList.cons x tl) from rfl] at hw
          omega
        have hshape : jser d (Json.arr (JsonList.cons x tl)) ++ rest
            = '[' :: '\n' :: (jserItems (d + 2) (JsonList.cons x tl)
                ++ '\n' :: (sp d ++ ']' :: rest)) := by
          show ('[' :: '\n' :: (jserItems (d + 2) (JsonList.cons x tl)
              ++ '\n' :: (sp d ++ [']']))) ++ rest = _
          simp [List.append_assoc]
        rw [hshape]
        simp only [pVal]
        rw [skipWs_cons_neg '[' _ (by decide)]
        simp only [Char.reduceEq, ite_false, ite_true, if_false, if_true]
        obtain ⟨T, hT, hTnd, hTalt⟩ := jserItems_shape (d + 2) x tl
        obtain ⟨c0, t0, hjh, hws0, hne0, hne0b⟩ := jser_head (d + 2) x
        have hsk : skipWs ('\n' :: (jserItems (d + 2) (JsonList.cons x tl)
            ++ '\n' :: (sp d ++ ']' :: rest)))
            = c0 :: (t0 ++ (T ++ '\n' :: (sp d ++ ']' :: rest))) := by
          have e1 : '\n' :: (jserItems (d + 2) (JsonList.cons x tl)
              ++ '\n' :: (sp d ++ ']' :: rest))
              = ('\n' :: sp (d + 2))
                ++ ((c0 :: t0) ++ (T ++ '\n' :: (sp d ++ ']' :: rest))) := by
            rw [hT, hjh]
            simp [List.append_assoc]
          rw [e1, skipWs_ws_pre _ _ (nl_sp_ws (d + 2)), List.cons_append]
          exact skipWs_cons_neg c0 _ hws0
        simp only [hsk, hne0, ite_false, if_false]
        rw [← hsk, pItems_skipWs]
        rw [show ('\n' :: (jserItems (d + 2) (JsonList.cons x tl)
            ++ '\n' :: (sp d ++ ']' :: rest)))
          = ['\n'] ++ (jserItems (d + 2) (JsonList.cons x tl)
            ++ '\n' :: (sp d ++ ']' :: rest)) from rfl]
        rw [pItems_ws f ['\n'] _ (by decide)]
        rw [hq (d + 2) d f rest (by intro h; cases h) hwl hrest]
        rfl
  case hobj =>
    intro ms hr d fuel rest hw hrest
    cases ms with
    | nil =>
      cases fuel with
      | zero => simp [jweight] at hw
      | succ f => rfl
    | cons k v tl =>
      cases fuel with
      | zero =>
        rw [show jweight (Json.obj (JsonMems.cons k v tl))
          = 1 + jweightMems (JsonMems.cons k v tl) from rfl] at hw
        omega
      | succ f =>
        have hwl : jweightMems (JsonMems.cons k v tl) ≤ f := by
          rw [show jweight (Json.obj (JsonMems.cons k v tl))
            = 1 + jweightMems (JsonMems.cons k v tl) from rfl] at hw
          omega
        have hshape : jser d (Json.obj (JsonMems.cons k v tl)) ++ rest
            = '\x7b' :: '\n' :: (jserMems (d + 2) (JsonMems.cons k v tl)
                ++ '\n' :: (sp d ++ '\x7d' :: rest)) := by
          show ('\x7b' :: '\n' :: (jserMems (d + 2) (JsonMems.cons k v tl)
              ++ '\n' :: (sp d ++ ['\x7d']))) ++ rest = _
          simp [List.append_assoc]
        rw [hshape]
        simp only [pVal]
        rw [skipWs_cons_neg '\x7b' _ (by decide)]
        simp only [Char.reduceEq, ite_false, ite_true, if_false, if_true]
        obtain ⟨T, hT, hTnd, hTalt⟩ := jserMems_shape (d + 2) k v tl
        have hsk : skipWs ('\n' :: (jserMems (d + 2) (JsonMems.cons k v tl)
            ++ '\n' :: (sp d ++ '\x7d' :: rest)))
            = '"' :: (escList k.toList ++ '"' :: ':' :: ' ' ::
                (jser (d + 2) v ++ (T ++ '\n' :: (sp d ++ '\x7d' :: rest)))) := by
          have e1 : '\n' :: (jserMems (d + 2) (JsonMems.cons k v tl)
              ++ '\n' :: (sp d ++ '\x7d' :: rest))
              = ('\n' :: sp (d + 2))
                ++ ('"' :: (escList k.toList ++ '"' :: ':' :: ' ' ::
                   (jser (d + 2) v ++ (T ++ '\n' :: (sp d ++ '\x7d' :: rest))))) := by
            rw [hT ('\n' :: (sp d ++ '\x7d' :: rest))]
            simp [List.append_assoc]
          rw [e1, skipWs_ws_pre _ _ (nl_sp_ws (d + 2))]
          exact skipWs_cons_neg '"' _ (by decide)
        simp only [hsk, Char.reduceEq, ite_false, if_false]
        rw [← hsk, pMems_skipWs]
        rw [show ('\n' :: (jserMems (d + 2) (JsonMems.cons k v tl)
            ++ '\n' :: (sp d ++ '\x7d' :: rest)))
          = ['\n'] ++ (jserMems (d + 2) (JsonMems.cons k v tl)
            ++ '\n' :: (sp d ++ '\x7d' :: rest)) from rfl]
        rw [pMems_ws f ['\n'] _ (by decide)]
        rw [hr (d + 2) d f rest (by intro h; cases h) hwl hrest]
        rfl
  case hcons =>
    intro x tl px qtl d d2 fuel rest hne hw hrest
    cases fuel with
    | zero =>
      rw [show jweightList (JsonList.cons x tl)
        = 1 + jweight x + jweightList tl from rfl] at hw
      omega
    | succ f =>
      have hwx : jweight x ≤ f := by
        rw [show jweightList (JsonList.cons x tl)
          = 1 + jweight x + jweightList tl from rfl] at hw
        omega
      obtain ⟨T, hT, hTnd, hTalt⟩ := jserItems_shape d x tl
      have hshape : jserItems d (JsonList.cons x tl) ++ '\n' :: (sp d2 ++ ']' :: rest)
          = sp d ++ (jser d x ++ (T ++ '\n' :: (sp d2 ++ ']' :: rest))) := by
        rw [hT]
        simp [List.append_assoc]
      simp only [pItems]
      rw [hshape, pVal_ws f _ _ (sp_ws d)]
      rw [px d f _ hwx (hTnd _)]
      rcases hTalt with ⟨hTe, htl⟩ | ⟨y, tl2, htl, hTe⟩
      · subst hTe
        subst htl
        have hskc : skipWs ([] ++ '\n' :: (sp d2 ++ ']' :: rest)) = ']' :: rest := by
          show skipWs (('\n' :: sp d2) ++ (']' :: rest)) = _
          rw [skipWs_ws_pre _ _ (nl_sp_ws d2)]
          exact skipWs_cons_neg ']' rest (by decide)
        simp only [hskc, Char.reduceEq, ite_false, ite_true, if_false, if_true]
      · subst htl
        subst hTe
        have hskc : skipWs ((',' :: '\n' :: jserItems d (JsonList.cons y tl2))
            ++ '\n' :: (sp d2 ++ ']' :: rest))
            = ',' :: ('\n' :: (jserItems d (JsonList.cons y tl2)
                ++ '\n' :: (sp d2 ++ ']' :: rest))) := by
          show skipWs (',' :: ('\n' :: (jserItems d (JsonList.cons y tl2)
              ++ '\n' :: (sp d2 ++ ']' :: rest)))) = _
          exact skipWs_cons_neg ',' _ (by decide)
        simp only [hskc, Char.reduceEq, ite_false, ite_true, if_false, if_true]
        rw [show ('\n' :: (jserItems d (JsonList.cons y tl2)
            ++ '\n' :: (sp d2 ++ ']' :: rest)))
          = ['\n'] ++ (jserItems d (JsonList.cons y tl2)
            ++ '\n' :: (sp d2 ++ ']' :: rest)) from rfl]
        rw [pItems_ws f ['\n'] _ (by decide)]
        have hwtl : jweightList (JsonList.cons y tl2) ≤ f := by
          rw [show jweightList (JsonList.cons x (JsonList.cons y tl2))
            = 1 + jweight x + jweightList (JsonList.cons y tl2) from rfl] at hw
          omega
        rw [qtl d d2 f rest (by intro h; cases h) hwtl hrest]
        rfl
  case hmnil =>
    intro d d2 fuel rest hne hw hrest
    exact absurd rfl hne
  case hmcons =>
    intro k v tl pv rtl d d2 fuel rest hne hw hrest
    cases fuel with
    | zero =>
      rw [show jweightMems (JsonMems.cons k v tl)
        = 1 + jweight v + jweightMems tl from rfl] at hw
      omega
    | succ f =>
      have hwv : jweight v ≤ f := by
        rw [show jweightMems (JsonMems.cons k v tl)
          = 1 + jweight v + jweightMems tl from rfl] at hw
        omega
      obtain ⟨T, hT, hTnd, hTalt⟩ := jserMems_shape d k v tl
      have hks : String.mk k.toList = k := by
        cases k
        rfl
      simp only [pMems]
      rw [hT ('\n' :: (sp d2 ++ '\x7d' :: rest))]
      have hsk : skipWs (sp d ++ ('"' :: (escList k.toList ++ '"' :: ':' :: ' ' ::
          (jser d v ++ (T ++ '\n' :: (sp d2 ++ '\x7d' :: rest))))))
          = '"' :: (escList k.toList ++ '"' :: ':' :: ' ' ::
            (jser d v ++ (T ++ '\n' :: (sp d2 ++ '\x7d' :: rest)))) := by
        rw [skipWs_ws_pre _ _ (sp_ws d)]
        exact skipWs_cons_neg '"' _ (by decide)
      simp only [hsk, Char.reduceEq, ite_true, if_true]
      simp only [pStrBody_escList]
      have hsk2 : skipWs (':' :: ' ' :: (jser d v
          ++ (T ++ '\n' :: (sp d2 ++ '\x7d' :: rest))))
          = ':' :: ' ' :: (jser d v ++ (T ++ '\n' :: (sp d2 ++ '\x7d' :: rest))) :=
        skipWs_cons_neg ':' _ (by decide)
      simp only [hsk2, Char.reduceEq, ite_true, if_true]
      have hpv : pVal f (' ' :: (jser d v ++ (T ++ '\n' :: (sp d2 ++ '\x7d' :: rest))))
          = some (v, T ++ '\n' :: (sp d2 ++ '\x7d' :: rest)) := by
        rw [show (' ' :: (jser d v ++ (T ++ '\n' :: (sp d2 ++ '\x7d' :: rest))))
          = [' '] ++ (jser d v ++ (T ++ '\n' :: (sp d2 ++ '\x7d' :: rest))) from rfl]
        rw [pVal_ws f [' '] _ (by decide)]
        exact pv d f _ hwv (hTnd _)
      simp only [hpv]
      rcases hTalt with ⟨hTe, htl⟩ | ⟨k2, v2, tl2, htl, hTe⟩
      · subst hTe
        subst htl
        have hskc : skipWs ([] ++ '\n' :: (sp d2 ++ '\x7d' :: rest))
            = '\x7d' :: rest := by
          show skipWs (('\n' :: sp d2) ++ ('\x7d' :: rest)) = _
          rw [skipWs_ws_pre _ _ (nl_sp_ws d2)]
          exact skipWs_cons_neg '\x7d' rest (by decide)
        simp only [hskc, Char.reduceEq, ite_false, ite_true, if_false, if_true]
        rw [hks]
      · subst htl
        subst hTe
        have hskc : skipWs ((',' :: '\n' :: jserMems d (JsonMems.cons k2 v2 tl2))
            ++ '\n' :: (sp d2 ++ '\x7d' :: rest))
            = ',' :: ('\n' :: (jserMems d (JsonMems.cons k2 v2 tl2)
                ++ '\n' :: (sp d2 ++ '\x7d' :: rest))) := by
          show skipWs (',' :: ('\n' :: (jserMems d (JsonMems.cons k2 v2 tl2)
              ++ '\n' :: (sp d2 ++ '\x7d' :: rest)))) = _
          exact skipWs_cons_neg ',' _ (by decide)
        simp only [hskc, Char.reduceEq, ite_false, ite_true, if_false, if_true]
        rw [show ('\n' :: (jserMems d (JsonMems.cons k2 v2 tl2)
            ++ '\n' :: (sp d2 ++ '\x7d' :: rest)))
          = ['\n'] ++ (jserMems d (JsonMems.cons k2 v2 tl2)
            ++ '\n' :: (sp d2 ++ '\x7d' :: rest)) from rfl]
        rw [pMems_ws f ['\n'] _ (by decide)]
        have hwtl : jweightMems (JsonMems.cons k2 v2 tl2) ≤ f := by
          rw [show jweightMems (JsonMems.cons k v (JsonMems.cons k2 v2 tl2))
            = 1 + jweight v + jweightMems (JsonMems.cons k2 v2 tl2) from rfl] at hw
          omega
        rw [rtl d d2 f rest (by intro h; cases h) hwtl hrest]
        rw [hks]
        rfl

/-! ### JSON roundtrip: fuel bound and final newline -/

theorem jweight_le_len :
    (∀ v : Json, ∀ d, jweight v ≤ (jser d v).length) ∧
    (∀ l : JsonList, ∀ d, jweightList l ≤ (jserItems d l).length + 1) ∧
    (∀ m : JsonMems, ∀ d, jweightMems m ≤ (jserMems d m).length + 1) := by
  refine json_mutual_ind _ _ _ ?hnull ?hbool ?hnum ?hstr ?harr ?hobj ?hnil ?hcons
    ?hmnil ?hmcons
  case hnull =>
    intro d
    simp [jweight, jser]
  case hbool =>
    intro b d
    cases b <;> simp [jweight, jser]
  case hnum =>
    intro n d
    show 1 ≤ (intDigs n).length
    unfold intDigs
    by_cases hn : n < 0
    · rw [if_pos hn]
      simp
    · rw [if_neg hn]
      exact List.length_pos.mpr (natDigs_ne_nil _)
  case hstr =>
    intro s d
    show 1 ≤ (escString s).length
    simp [escString]
  case harr =>
    intro xs hq d
    cases xs with
    | nil => simp [jweight, jser, jweightList]
    | cons x tl =>
      have h1 := hq (d + 2)
      rw [show jweight (Json.arr (JsonList.cons x tl))
        = 1 + jweightList (JsonList.cons x tl) from rfl]
      rw [show jser d (Json.arr (JsonList.cons x tl))
        = '[' :: '\n' :: (jserItems (d + 2) (JsonList.cons x tl)
          ++ '\n' :: (sp d ++ [']'])) from rfl]
      simp only [List.length_cons, List.length_append]
      omega
  case hobj =>
    intro ms hr d
    cases ms with
    | nil => simp [jweight, jser, jweightMems]
    | cons k v tl =>
      have h1 := hr (d + 2)
      rw [show jweight (Json.obj (JsonMems.cons k v tl))
        = 1 + jweightMems (JsonMems.cons k v tl) from rfl]
      rw [show jser d (Json.obj (JsonMems.cons k v tl))
        = '\x7b' :: '\n' :: (jserMems (d + 2) (JsonMems.cons k v tl)
          ++ '\n' :: (sp d ++ ['\x7d'])) from rfl]
      simp only [List.length_cons, List.length_append]
      omega
  case hnil =>
    intro d
    simp [jweightList, jserItems]
  case hcons =>
    intro x tl px qtl d
    have h1 := px d
    rw [show jweightList (JsonList.cons x tl)
      = 1 + jweight x + jweightList tl from rfl]
    cases tl with
    | nil =>
      rw [show jserItems d (JsonList.cons x JsonList.nil)
        = (sp d ++ jser d x) ++ [] from rfl]
      rw [show jweightList JsonList.nil = 0 from rfl]
      simp only [List.length_append, List.append_nil]
      omega
    | cons y tl2 =>
      have h2 := qtl d
      rw [show jserItems d (JsonList.cons x (JsonList.cons y tl2))
        = (sp d ++ jser d x) ++ (',' :: '\n' :: jserItems d (JsonList.cons y tl2))
        from rfl]
      simp only [List.length_append, List.length_cons]
      omega
  case hmnil =>
    intro d
    simp [jweightMems, jserMems]
  case hmcons =>
    intro k v tl pv rtl d
    have h1 := pv d
    rw [show jweightMems (JsonMems.cons k v tl)
      = 1 + jweight v + jweightMems tl from rfl]
    cases tl with
    | nil =>
      rw [show jserMems d (JsonMems.cons k v JsonMems.nil)
        = (sp d ++ (escString k ++ ':' :: ' ' :: jser d v)) ++ [] from rfl]
      rw [show jweightMems JsonMems.nil = 0 from rfl]
      simp only [List.length_append, List.length_cons, List.append_nil]
      omega
    | cons k2 v2 tl2 =>
      have h2 := rtl d
      rw [show jserMems d (JsonMems.cons k v (JsonMems.cons k2 v2 tl2))
        = (sp d ++ (escString k ++ ':' :: ' ' :: jser d v))
          ++ (',' :: '\n' :: jserMems d (JsonMems.cons k2 v2 tl2)) from rfl]
      simp only [List.length_append, List.length_cons]
      omega

theorem digits_getLast_ne (l : List Char) (hne : l ≠ [])
    (hall : ∀ c ∈ l, c.isDigit = true) : l.getLast? ≠ some '\n' := by
  rw [List.getLast?_eq_getLast l hne]
  intro h
  have hmem := List.getLast_mem hne
  have hd := hall _ hmem
  rw [Option.some.inj h] at hd
  exact absurd hd (by decide)

theorem jser_last (d : Nat) (v : Json) : (jser d v).getLast? ≠ some '\n' := by
  cases v with
  | null => exact (by decide : (['n', 'u', 'l', 'l'] : List Char).getLast? ≠ some '\n')
  | bool b =>
    cases b with
    | false =>
      exact (by decide : (['f', 'a', 'l', 's', 'e'] : List Char).getLast? ≠ some '\n')
    | true =>
      exact (by decide : (['t', 'r', 'u', 'e'] : List Char).getLast? ≠ some '\n')
  | num n =>
    show (intDigs n).getLast? ≠ some '\n'
    unfold intDigs
    by_cases hn : n < 0
    · rw [if_pos hn]
      rcases hd : natDigs n.natAbs with _ | ⟨c, t⟩
      · exact absurd hd (natDigs_ne_nil _)
      · rw [List.getLast?_cons_cons]
        exact digits_getLast_ne (c :: t) (by intro h; cases h)
          (fun c2 hc2 => natDigs_digits _ c2 (hd ▸ hc2))
    · rw [if_neg hn]
      exact digits_getLast_ne _ (natDigs_ne_nil _) (natDigs_digits _)
  | str s =>
    show (escString s).getLast? ≠ some '\n'
    unfold escString
    rw [show ('"' :: escList s.toList ++ ['"'])
      = ('"' :: escList s.toList) ++ ['"'] from rfl]
    rw [List.getLast?_concat]
    decide
  | arr xs =>
    cases xs with
    | nil => exact (by decide : (['[', ']'] : List Char).getLast? ≠ some '\n')
    | cons x tl =>
      have hshape : jser d (Json.arr (JsonList.cons x tl))
          = ('[' :: '\n' :: (jserItems (d + 2) (JsonList.cons x tl)
              ++ '\n' :: sp d)) ++ [']'] := by
        show '[' :: '\n' :: (jserItems (d + 2) (JsonList.cons x tl)
            ++ '\n' :: (sp d ++ [']'])) = _
        simp [List.append_assoc]
      rw [hshape, List.getLast?_concat]
      decide
  | obj ms =>
    cases ms with
    | nil => exact (by decide : (['\x7b', '\x7d'] : List Char).getLast? ≠ some '\n')
    | cons k v tl =>
      have hshape : jser d (Json.obj (JsonMems.cons k v tl))
          = ('\x7b' :: '\n' :: (jserMems (d + 2) (JsonMems.cons k v tl)
              ++ '\n' :: sp d)) ++ ['\x7d'] := by
        show '\x7b' :: '\n' :: (jserMems (d + 2) (JsonMems.cons k v tl)
            ++ '\n' :: (sp d ++ ['\x7d'])) = _
        simp [List.append_assoc]
      rw [hshape, List.getLast?_concat]
      decide

theorem jstringify_toList (v : Json) :
    (jstringify v ++ "\n").toList = jser 0 v ++ ['\n'] := by
  show (jstringify v ++ "\n").data = _
  rw [String.data_append]
  rfl

theorem jstringify_parse (v : Json) :
    jsonParse (jstringify v ++ "\n") = Except.ok v := by
  unfold jsonParse
  rw [jstringify_toList]
  have hfuel : jweight v ≤ (jser 0 v ++ ['\n']).length + 1 := by
    have h1 := jweight_le_len.1 v 0
    rw [List.length_append]
    omega
  rw [jser_pVal_roundtrip.1 v 0 _ ['\n'] hfuel (noDigitHead_cons '\n' [] (by decide))]
  show (if skipWs ['\n'] = ([] : List Char) then (Except.ok v : Except String Json)
    else Except.error "Unexpected non-whitespace character after JSON data") = _
  rw [if_pos (show skipWs ['\n'] = [] from rfl)]

theorem jstringify_endsOneNl (v : Json) :
    endsOneNl ((jstringify v ++ "\n").toList) := by
  rw [jstringify_toList]
  constructor
  · rw [List.getLast?_concat]
  · rw [List.dropLast_concat]
    exact jser_last 0 v

/-- C5: formatJSON follows a two-tier fallback: a present prettier
capability is tried first and its success is returned as-is; on any
prettier failure, or when the capability is absent, the dispatcher falls
back to the structural parse plus canonical re-serialization
`JSON.stringify(JSON.parse(code), null, 2) + "\n"`; if the structural
parse itself fails the operation fails with "Invalid JSON: " followed by
the parser's message. For parseable input the fallback output re-parses
to the structurally equal value and ends with exactly one trailing
newline. -/
theorem C5_json_two_tier (caps : Caps) (code : String) :
    (∀ p out, caps.prettier = some p → p code prettierOpts = Except.ok out →
      formatJSON caps code = Except.ok out) ∧
    (∀ p e, caps.prettier = some p → p code prettierOpts = Except.error e →
      formatJSON caps code = jsonFallback code) ∧
    (caps.prettier = none → formatJSON caps code = jsonFallback code) ∧
    (∀ v, jsonParse code = Except.ok v →
      jsonFallback code = Except.ok (jstringify v ++ "\n") ∧
      jsonParse (jstringify v ++ "\n") = Except.ok v ∧
      endsOneNl ((jstringify v ++ "\n").toList)) ∧
    (∀ e, jsonParse code = Except.error e →
      jsonFallback code = Except.error ("Invalid JSON: " ++ e)) := by
  refine ⟨?_, ?_, ?_, ?_, ?_⟩
  · intro p out hp hout
    unfold formatJSON
    rw [hp]
    show (match p code prettierOpts with
          | Except.ok out => Except.ok out
          | Except.error _ => jsonFallback code) = Except.ok out
    rw [hout]
  · intro p e hp herr
    unfold formatJSON
    rw [hp]
    show (match p code prettierOpts with
          | Except.ok out => Except.ok out
          | Except.error _ => jsonFallback code) = jsonFallback code
    rw [herr]
  · intro hp
    unfold formatJSON
    rw [hp]
  · intro v hv
    refine ⟨?_, jstringify_parse v, jstringify_endsOneNl v⟩
    unfold jsonFallback
    rw [hv]
  · intro e he
    unfold jsonFallback
    rw [he]

/-- Witness for C5 at concrete inputs: the tier-1 path returns the
prettier output verbatim, and with no prettier the fallback on
`[1, true]` round-trips through parse and stringify and ends in exactly
one newline. -/
theorem C5_json_two_tier_witness :
    formatJSON (⟨none, none, none, some (fun _ _ => Except.ok "X"), none, true, true⟩ : Caps)
        (String.mk ['[', '1', ']']) = Except.ok "X" ∧
    jsonParse (String.mk ['[', '1', ',', ' ', 't', 'r', 'u', 'e', ']'])
      = Except.ok (Json.arr (JsonList.cons (Json.num 1)
          (JsonList.cons (Json.bool true) JsonList.nil))) ∧
    jsonFallback (String.mk ['[', '1', ',', ' ', 't', 'r', 'u', 'e', ']'])
      = Except.ok (jstringify (Json.arr (JsonList.cons (Json.num 1)
          (JsonList.cons (Json.bool true) JsonList.nil))) ++ "\n") ∧
    jsonParse (jstringify (Json.arr (JsonList.cons (Json.num 1)
        (JsonList.cons (Json.bool true) JsonList.nil))) ++ "\n")
      = Except.ok (Json.arr (JsonList.cons (Json.num 1)
          (JsonList.cons (Json.bool true) JsonList.nil))) ∧
    endsOneNl ((jstringify (Json.arr (JsonList.cons (Json.num 1)
        (JsonList.cons (Json.bool true) JsonList.nil))) ++ "\n").toList) := by
  have h1 := (C5_json_two_tier
      (⟨none, none, none, some (fun _ _ => Except.ok "X"), none, true, true⟩ : Caps)
      (String.mk ['[', '1', ']'])).1 (fun _ _ => Except.ok "X") "X" rfl rfl
  have h2 := (C5_json_two_tier
      (⟨none, none, none, none, none, true, true⟩ : Caps)
      (String.mk ['[', '1', ',', ' ', 't', 'r', 'u', 'e', ']'])).2.2.2.1
      (Json.arr (JsonList.cons (Json.num 1) (JsonList.cons (Json.bool true) JsonList.nil)))
      rfl
  exact ⟨h1, rfl, h2.1, h2.2.1, h2.2.2⟩
